import Mathlib

/-!
Shallow embedding of `stores/replicator/replicator.go` (go-orbit-db).

Modelling choices, each anchored at the Go source:

* CIDs are modelled by the strings the Go code keys its maps with
  (`h.String()`, injective on CIDs), so `cid.Cid` becomes `String`.
* The Go maps `r.queue` and `r.fetching` (`map[string]cid.Cid`, key is the
  value's string) are modelled as insertion-ordered duplicate-free lists of
  strings.  Go map iteration order is unspecified; the model fixes insertion
  order as one admissible order (all verified statements below are either
  order-independent or evaluate the model's concrete order).
* The `uint` counters become `Nat`.  `tasksRunning` performs Go unsigned
  subtraction; it is modelled by truncated `Nat` subtraction, which agrees with
  the Go value whenever `statsTasksProcessed ≤ statsTasksStarted` (an invariant
  proved below over all reachable states).
* `r.store.OpLog()` is external, never mutated by the replicator.  Both entry
  lookups (`GetEntries().UnsafeGet` in `Load` and `Values().Get` in
  `processOne`) are membership checks on the store's op-log and are modelled by
  a single boolean membership function `Env.inLog`.
* `ipfslog.NewFromEntryHash(ctx, …, h, …, FetchOptions{Length: &batchSize})` is
  external network I/O; it is modelled by `Env.fetch : String → Option (List
  String)`: `some nexts` is a successful fetch of the one-entry fragment for
  `h` whose entries' `GetNext()` pointers are `nexts`; `none` is a fetch error.
  The fetched `ipfslog.Log` appended to `r.buffer` is represented by the hash
  it was fetched from, and `l.Values().At(0)` (the `latest` entry reported in
  the progress event) by that same hash.
* `events.EventEmitter.Emit` is modelled by appending to an event list carried
  in the state.
* `context` plumbing: the only place the replicator itself reacts to its own
  context is the watchdog goroutine's `<-ctx.Done()` branch; `Stop()` calls
  `cancelFunc()`.  This is modelled by a `stopped` flag set by `Stop` and read
  only by the watchdog step.
* The unbounded recursion `processQueue → Load → processQueue` is given fuel;
  theorems quantify over (sufficient) fuel, so no behaviour is hidden in the
  fuel-exhaustion branch.
-/

/-- Events emitted by the replicator: `NewEventLoadAdded h` (fetch started for
`h`), `NewEventLoadProgress` (one fetch completed, carrying the fetched hash
and the current buffer length), and `NewEventLoadEnd` (batch flushed, carrying
the buffered fragments, each represented by the hash it was fetched from). -/
inductive REvent where
  | loadAdded (hash : String)
  | loadProgress (hash : String) (bufferLen : Nat)
  | loadEnd (logs : List String)
  deriving DecidableEq, Repr

/-- The external collaborators of the replicator: op-log membership and
content-addressed fetching (see the module docstring). -/
structure Env where
  inLog : String → Bool
  fetch : String → Option (List String)

/-- The `replicator` struct's mutable fields (minus the lock, which guards the
critical sections; the model's states are the states outside those sections). -/
structure RState where
  fetching : List String
  queue : List String
  statsTasksRequested : Nat
  statsTasksStarted : Nat
  statsTasksProcessed : Nat
  buffer : List String
  events : List REvent
  concurrency : Nat
  stopped : Bool
  deriving DecidableEq, Repr

/-- `NewReplicator`: empty maps, zero counters, and the concurrency default
(`if concurrency == 0 { concurrency = 128 }`). -/
def initState (concurrency : Nat) : RState :=
  { fetching := []
    queue := []
    statsTasksRequested := 0
    statsTasksStarted := 0
    statsTasksProcessed := 0
    buffer := []
    events := []
    concurrency := if concurrency = 0 then 128 else concurrency
    stopped := false }

/-- `Stop()`: calls `cancelFunc()`, cancelling the context observed by the
watchdog goroutine.  Nothing else in the replicator reads that context. -/
def Stop (s : RState) : RState :=
  { s with stopped := true }

/-- `tasksRunning()`: `statsTasksStarted - statsTasksProcessed` (Go `uint`
subtraction; agrees with `Nat` subtraction under the proved invariant
`statsTasksProcessed ≤ statsTasksStarted`). -/
def tasksRunning (s : RState) : Nat :=
  s.statsTasksStarted - s.statsTasksProcessed

/-- `addToQueue`: increments the requested counter and inserts into the queue
map. -/
def addToQueue (s : RState) (h : String) : RState :=
  { s with
    statsTasksRequested := s.statsTasksRequested + 1
    queue := s.queue ++ [h] }

/-- One iteration of `Load`'s loop: skip `h` when it is already being fetched,
already queued, or already in the op-log; otherwise `addToQueue`. -/
def loadStep (env : Env) (s : RState) (h : String) : RState :=
  if s.fetching.contains h || s.queue.contains h || env.inLog h then s
  else addToQueue s h

/-- The whole gate loop of `Load`, before its final `processQueue` call. -/
def enqueueAll (env : Env) (s : RState) (cids : List String) : RState :=
  cids.foldl (loadStep env) s

/-- `processOne`: skip if the entry is already in the op-log or already being
fetched; otherwise mark in-flight, emit `EventLoadAdded`, bump
`statsTasksStarted`, fetch; on error return the error (the Go code performs no
further bookkeeping on this path); on success append the fragment to the
buffer, delete the hash from the queue (defensively), bump
`statsTasksProcessed`, emit `EventLoadProgress`, and return the fragment's
next-pointers.  Note the Go code never deletes `h` from `r.fetching`. -/
def processOne (env : Env) (s : RState) (h : String) :
    RState × Except Unit (List String) :=
  if env.inLog h || s.fetching.contains h then (s, Except.ok [])
  else
    let s1 : RState :=
      { s with
        fetching := s.fetching ++ [h]
        events := s.events ++ [REvent.loadAdded h]
        statsTasksStarted := s.statsTasksStarted + 1 }
    match env.fetch h with
    | none => (s1, Except.error ())
    | some nexts =>
      let s2 : RState :=
        { s1 with
          buffer := s1.buffer ++ [h]
          queue := s1.queue.erase h
          statsTasksProcessed := s1.statsTasksProcessed + 1 }
      let s3 : RState :=
        { s2 with events := s2.events ++ [REvent.loadProgress h s2.buffer.length] }
      (s3, Except.ok nexts)

/-- The first loop of `processQueue`: for each claimed item, delete it from the
queue and run `processOne`; collect the returned next-pointer lists in
`hashesList`; on a fetch error abort immediately (the Go `return`), signalled
by the final `Bool`. -/
def runItems (env : Env) : RState → List String → RState × List (List String) × Bool
  | s, [] => (s, [], false)
  | s, h :: rest =>
    let s1 : RState := { s with queue := s.queue.erase h }
    match processOne env s1 h with
    | (s2, Except.error _) => (s2, [], true)
    | (s2, Except.ok nexts) =>
      let r := runItems env s2 rest
      (r.1, nexts :: r.2.1, r.2.2)

/-- The flush conditional inside `processQueue`'s second loop:
`if (len(items) > 0 && len(b) > 0) || (r.tasksRunning() == 0 && len(b) > 0)`
then clear the buffer and emit `EventLoadEnd` with the buffered fragments. -/
def flushCheck (s : RState) (itemsLen : Nat) : RState :=
  if (0 < itemsLen ∧ 0 < s.buffer.length) ∨ (tasksRunning s = 0 ∧ 0 < s.buffer.length) then
    { s with
      buffer := []
      events := s.events ++ [REvent.loadEnd s.buffer] }
  else s

/-- The second loop of `processQueue`: for each collected next-pointer list,
run the flush conditional, then (`if len(hashes) > 0`) recurse through
`r.Load`.  The recursive `Load` is passed in as `load`. -/
def flushFold (load : RState → List String → RState) (itemsLen : Nat) :
    RState → List (List String) → RState
  | s, [] => s
  | s, hashes :: rest =>
    let s1 := flushCheck s itemsLen
    let s2 := if hashes.isEmpty then s1 else load s1 hashes
    flushFold load itemsLen s2 rest

/-- `processQueue`: back-pressure guard, capacity computation
(`concurrency - tasksRunning`, capped by the queue snapshot length), claim of
the batch (`items`), the fetch loop, and the flush/recursion loop.  The
recursion `processQueue → Load → processQueue` is fuelled. -/
def processQueue (env : Env) : Nat → RState → RState
  | 0, s => s
  | fuel + 1, s =>
    if s.concurrency ≤ tasksRunning s then s
    else
      let capacity := min (s.concurrency - tasksRunning s) s.queue.length
      let items := s.queue.take capacity
      match runItems env s items with
      | (s1, _, true) => s1
      | (s1, hl, false) =>
        flushFold (fun st cs => processQueue env fuel (enqueueAll env st cs))
          items.length s1 hl

/-- `Load`: the dedup gate loop followed by `processQueue`. -/
def Load (env : Env) (fuel : Nat) (s : RState) (cids : List String) : RState :=
  processQueue env fuel (enqueueAll env s cids)

/-- One wake of the watchdog goroutine in `NewReplicator`: if the context is
cancelled the goroutine exits (no dispatch); otherwise
`if r.tasksRunning() == 0 && qLen > 0 { r.processQueue(ctx) }`.  The returned
`Bool` records whether `processQueue` was invoked. -/
def watchdogWake (env : Env) (fuel : Nat) (s : RState) : RState × Bool :=
  if s.stopped then (s, false)
  else if tasksRunning s = 0 ∧ 0 < s.queue.length then (processQueue env fuel s, true)
  else (s, false)

/-- Repeated invocation of the dispatch step (`processQueue`), as performed by
the watchdog or repeated external loads, until the queue is empty (or the
round budget runs out). -/
def drainRepeat (env : Env) (fuel : Nat) : Nat → RState → RState
  | 0, s => s
  | n + 1, s =>
    if s.queue.isEmpty then s else drainRepeat env fuel n (processQueue env fuel s)

/-- A decidable description of a fully fetchable universe of hashes: every
hash in `univ` is absent from the op-log and fetches successfully, with all
its next-pointers inside `univ`. -/
def envClosed (env : Env) (univ : List String) : Bool :=
  univ.all fun h =>
    !env.inLog h &&
      match env.fetch h with
      | some ns => ns.all fun n => univ.contains n
      | none => false

/-- All fragments carried by `EventLoadEnd` (BatchFlushed) events, in emission
order. -/
def flushedLogs (evs : List REvent) : List String :=
  (evs.map fun e =>
    match e with
    | REvent.loadEnd ls => ls
    | _ => []).flatten

/-- Number of `EventLoadEnd` (BatchFlushed) events in an event list. -/
def countLoadEnd (evs : List REvent) : Nat :=
  (evs.filter fun e =>
    match e with
    | REvent.loadEnd _ => true
    | _ => false).length

/-- Transitive reachability through successful-fetch next-pointers, starting
from a root set: the "transitively reachable ancestors" of the spec. -/
inductive Reaches (env : Env) (roots : List String) : String → Prop
  | root {h : String} : h ∈ roots → Reaches env roots h
  | step {h n : String} {ns : List String} :
      Reaches env roots h → env.fetch h = some ns → n ∈ ns → Reaches env roots n

/-- Engine states reachable from construction through the public operations:
external `Load`s, direct dispatch, watchdog wakes, and `Stop`. -/
inductive Reach (env : Env) (c : Nat) : RState → Prop
  | init : Reach env c (initState c)
  | load {s : RState} (fuel : Nat) (cids : List String) :
      Reach env c s → Reach env c (Load env fuel s cids)
  | drain {s : RState} (fuel : Nat) :
      Reach env c s → Reach env c (processQueue env fuel s)
  | wake {s : RState} (fuel : Nat) :
      Reach env c s → Reach env c (watchdogWake env fuel s).1
  | stop {s : RState} : Reach env c s → Reach env c (Stop s)

/-! ### Concrete environments used by witnesses and counterexamples -/

/-- Environment where only `"h1"` is fetchable (no next pointers) and the
op-log is empty. -/
def envOne : Env :=
  { inLog := fun _ => false
    fetch := fun h => if h = "h1" then some [] else none }

/-- Environment in which every fetch fails and the op-log is empty. -/
def envErr : Env :=
  { inLog := fun _ => false
    fetch := fun _ => none }

/-- Environment with three independent fetchable hashes and an empty op-log. -/
def envThree : Env :=
  { inLog := fun _ => false
    fetch := fun h =>
      if h = "h1" ∨ h = "h2" ∨ h = "h3" then some [] else none }

/-- Scenario A environment: `h1 → []`, `h2 → [h4]`, `h3 → []`, `h4 → []`. -/
def envScenA : Env :=
  { inLog := fun _ => false
    fetch := fun h =>
      if h = "h1" then some []
      else if h = "h2" then some ["h4"]
      else if h = "h3" then some []
      else if h = "h4" then some []
      else none }

/-- The state produced by loading three independent hashes with ceiling 1:
one is fetched, two remain queued, none in flight. -/
def stateCeilOne : RState :=
  Load envThree 9 (initState 1) ["h1", "h2", "h3"]

/-! ### Small generic lemmas about the event accounting -/

theorem countLoadEnd_append (a b : List REvent) :
    countLoadEnd (a ++ b) = countLoadEnd a + countLoadEnd b := by
  simp [countLoadEnd, List.filter_append]

theorem flushedLogs_append (a b : List REvent) :
    flushedLogs (a ++ b) = flushedLogs a ++ flushedLogs b := by
  simp [flushedLogs]

/-! ### Claim C2 (code bug evidence) -/

/-- Claim C2: the claim (and §4.2/§7 of the spec) says `processOne` removes
`h` from the in-flight set when the fetch completes, with success or error.
The code never deletes from `r.fetching`: after `processOne` completes for
`"h1"` — successfully (`envOne`) or with a fetch error (`envErr`) — `"h1"` is
still in the fetching map.  Consequently a transiently failed hash can never
be retried (the dedup gate consults `fetching`), and after any error
`tasksRunning` stays positive forever, permanently disabling the watchdog. -/
theorem processOne_never_clears_fetching :
    ((processOne envOne (initState 2) "h1").1.fetching = ["h1"] ∧
      (processOne envOne (initState 2) "h1").1.statsTasksProcessed = 1 ∧
      (processOne envOne (initState 2) "h1").2 = Except.ok []) ∧
    ((processOne envErr (initState 2) "h1").1.fetching = ["h1"] ∧
      (processOne envErr (initState 2) "h1").1.statsTasksProcessed = 0 ∧
      (processOne envErr (initState 2) "h1").2 = Except.error ()) := by
  exact ⟨⟨by decide, by decide, rfl⟩, by decide, by decide, rfl⟩

/-! ### Claim C3 (counterexample) -/

/-- Claim C3 counterexample: in the reachable state obtained by loading the
single fetchable hash `"h1"` from a fresh engine, `statsTasksStarted −
statsTasksProcessed = 0` but the in-flight map `fetching` has one element
(`processOne` never deletes from it), refuting `started − processed =
|fetching|`. -/
theorem inflight_equation_counterexample :
    Reach envOne 2 (Load envOne 5 (initState 2) ["h1"]) ∧
    tasksRunning (Load envOne 5 (initState 2) ["h1"]) = 0 ∧
    (Load envOne 5 (initState 2) ["h1"]).fetching.length = 1 := by
  exact ⟨Reach.load 5 ["h1"] Reach.init, by decide, by decide⟩

/-! ### Claim C9 (counterexample) -/

/-- Claim C9 counterexample: `Stop` only cancels the watchdog's context;
`Load` never consults it.  Loading `["h1"]` after `Stop` on a fresh engine is
not a no-op: it enqueues/fetches `h1`, increments the counters, and emits
events. -/
theorem stop_not_noop_counterexample :
    Reach envOne 2 (Stop (initState 2)) ∧
    Load envOne 5 (Stop (initState 2)) ["h1"] ≠ Stop (initState 2) ∧
    (Load envOne 5 (Stop (initState 2)) ["h1"]).statsTasksRequested = 1 ∧
    (Load envOne 5 (Stop (initState 2)) ["h1"]).fetching = ["h1"] ∧
    (Load envOne 5 (Stop (initState 2)) ["h1"]).events ≠ [] := by
  refine ⟨Reach.stop Reach.init, by decide, by decide, by decide, by decide⟩

/-! ### Claim C10 (counterexample) -/

/-- Claim C10 counterexample: with ceiling 1 and the reachable state
`stateCeilOne` (queue `["h2", "h3"]`, zero tasks in flight, not stopped), a
single watchdog wake does invoke `processQueue`, but the queue is still
non-empty afterwards — one watchdog interval does not drain it. -/
theorem watchdog_wake_counterexample :
    Reach envThree 1 stateCeilOne ∧
    tasksRunning stateCeilOne = 0 ∧
    stateCeilOne.queue ≠ [] ∧
    stateCeilOne.stopped = false ∧
    (watchdogWake envThree 9 stateCeilOne).2 = true ∧
    (watchdogWake envThree 9 stateCeilOne).1.queue ≠ [] := by
  refine ⟨Reach.load 9 ["h1", "h2", "h3"] Reach.init,
    by decide, by decide, by decide, by decide, by decide⟩

/-! ### Claims C6 and C8 -/

theorem countLoadEnd_loadAdded (h : String) :
    countLoadEnd [REvent.loadAdded h] = 0 := rfl

theorem countLoadEnd_loadProgress (h : String) (n : Nat) :
    countLoadEnd [REvent.loadProgress h n] = 0 := rfl

theorem countLoadEnd_pair (h : String) (n : Nat) :
    countLoadEnd [REvent.loadAdded h, REvent.loadProgress h n] = 0 := rfl

/-- `enqueueAll` is the identity when every hash is gated out. -/
theorem enqueueAll_skip (env : Env) (s : RState) (cids : List String)
    (hall : ∀ x ∈ cids,
      (s.fetching.contains x || s.queue.contains x || env.inLog x) = true) :
    enqueueAll env s cids = s := by
  induction cids with
  | nil => rfl
  | cons c cs ih =>
    have hstep : loadStep env s c = s := by
      unfold loadStep
      rw [if_pos (hall c (by simp))]
    have : enqueueAll env s (c :: cs) = enqueueAll env s cs := by
      simp [enqueueAll, List.foldl_cons, hstep]
    rw [this]
    exact ih fun x hx => hall x (by simp [hx])

/-- `processQueue` is the identity on a state with an empty queue. -/
theorem processQueue_empty_queue (env : Env) (fuel : Nat) (s : RState)
    (hq : s.queue = []) :
    processQueue env fuel s = s := by
  cases fuel with
  | zero => rfl
  | succ fuel =>
    unfold processQueue
    split
    · rfl
    · simp [hq, runItems, flushFold]

/-- Claim C6: an `EventLoadEnd` (BatchFlushed) is emitted by the flush
conditional exactly when the buffer is non-empty and (the batch was non-empty
or no tasks remain in flight); the event carries the accumulated buffer, which
is cleared at that moment.  Individual fetch completions (`processOne`) and
the dedup gate (`loadStep`) never emit an `EventLoadEnd`. -/
theorem flush_coalescing (env : Env) (s : RState) (itemsLen : Nat) (h : String) :
    ((flushCheck s itemsLen).events ≠ s.events ↔
      0 < s.buffer.length ∧ (0 < itemsLen ∨ tasksRunning s = 0)) ∧
    (0 < s.buffer.length ∧ (0 < itemsLen ∨ tasksRunning s = 0) →
      flushCheck s itemsLen =
        { s with
          buffer := []
          events := s.events ++ [REvent.loadEnd s.buffer] }) ∧
    countLoadEnd (processOne env s h).1.events = countLoadEnd s.events ∧
    (loadStep env s h).events = s.events := by
  refine ⟨?_, ?_, ?_, ?_⟩
  · unfold flushCheck
    split
    next hc =>
      constructor
      · intro _
        tauto
      · intro _ he
        have := congrArg List.length he
        simp at this
    next hc =>
      constructor
      · intro he
        exact absurd rfl he
      · intro hcond
        exact absurd (Or.inl ⟨hcond.2.elim id fun hr => by tauto, hcond.1⟩) hc
  · intro hcond
    unfold flushCheck
    rw [if_pos]
    rcases hcond with ⟨hb, hi | hr⟩
    · exact Or.inl ⟨hi, hb⟩
    · exact Or.inr ⟨hr, hb⟩
  · unfold processOne
    split
    · rfl
    · rcases hfetch : env.fetch h with _ | nexts <;>
        simp [hfetch, countLoadEnd_append, countLoadEnd_loadAdded,
          countLoadEnd_loadProgress, countLoadEnd_pair]
  · unfold loadStep
    split
    · rfl
    · rfl

/-- A state with one buffered fragment, used by the C6 witness. -/
def sBuf : RState := { initState 2 with buffer := ["h1"] }

/-- Witness for C6: a concrete non-empty buffer after a non-trivial batch is
flushed as one `EventLoadEnd` carrying it, and the buffer is cleared. -/
theorem flush_coalescing_witness :
    (0 < sBuf.buffer.length ∧ (0 < 1 ∨ tasksRunning sBuf = 0)) ∧
    flushCheck sBuf 1 =
      { sBuf with
        buffer := []
        events := sBuf.events ++ [REvent.loadEnd sBuf.buffer] } := by
  have hc : 0 < sBuf.buffer.length ∧ (0 < 1 ∨ tasksRunning sBuf = 0) := by decide
  exact ⟨hc, (flush_coalescing envOne sBuf 1 "h1").2.1 hc⟩

/-- Environment where `"h1"` is already present in the local op-log. -/
def envLogged : Env :=
  { inLog := fun h => h == "h1"
    fetch := fun _ => none }

/-- Claim C8: `Load`'s per-hash dedup gate.  A hash already in-flight, already
queued, or already in the op-log is skipped with the state (queue, fetching,
counters, events) fully unchanged; any other hash is appended to the queue
with the requested counter incremented once.  When every given hash is gated
out and the queue is empty, the whole `Load` call is a no-op (spec Scenario
B). -/
theorem load_dedup_gate (env : Env) (s : RState) (h : String) (fuel : Nat)
    (cids : List String) :
    ((s.fetching.contains h || s.queue.contains h || env.inLog h) = true →
      loadStep env s h = s) ∧
    ((s.fetching.contains h || s.queue.contains h || env.inLog h) = false →
      loadStep env s h =
        { s with
          queue := s.queue ++ [h]
          statsTasksRequested := s.statsTasksRequested + 1 }) ∧
    ((∀ x ∈ cids,
        (s.fetching.contains x || s.queue.contains x || env.inLog x) = true) →
      s.queue = [] → Load env fuel s cids = s) := by
  refine ⟨?_, ?_, ?_⟩
  · intro hc
    unfold loadStep
    rw [if_pos hc]
  · intro hc
    unfold loadStep
    rw [if_neg (by simp only [hc]; decide)]
    rfl
  · intro hall hq
    unfold Load
    rw [enqueueAll_skip env s cids hall]
    exact processQueue_empty_queue env fuel s hq

/-- Witness for C8 (spec Scenario B): `RequestLoad(["h1"])` when `"h1"` is
already in the op-log is a complete no-op on a fresh engine. -/
theorem load_dedup_gate_witness :
    (((initState 2).fetching.contains "h1" || (initState 2).queue.contains "h1"
        || envLogged.inLog "h1") = true) ∧
    Load envLogged 5 (initState 2) ["h1"] = initState 2 := by
  refine ⟨by decide, ?_⟩
  exact (load_dedup_gate envLogged (initState 2) "h1" 5 ["h1"]).2.2
    (by intro x hx; simp at hx; subst hx; decide) rfl

/-! ### The general bookkeeping invariant (arbitrary environment) -/

/-- Characterization of `processOne` when the hash is already in the op-log or
in flight. -/
theorem processOne_skip (env : Env) (s : RState) (h : String)
    (hc : (env.inLog h || s.fetching.contains h) = true) :
    processOne env s h = (s, Except.ok []) := by
  unfold processOne
  rw [if_pos hc]

/-- Characterization of `processOne` when the fetch fails: the hash has been
marked in flight, `EventLoadAdded` emitted, `statsTasksStarted` bumped, and
nothing else. -/
theorem processOne_err (env : Env) (s : RState) (h : String)
    (hc : (env.inLog h || s.fetching.contains h) = false)
    (hf : env.fetch h = none) :
    processOne env s h =
      ({ s with
          fetching := s.fetching ++ [h]
          events := s.events ++ [REvent.loadAdded h]
          statsTasksStarted := s.statsTasksStarted + 1 }, Except.error ()) := by
  unfold processOne
  rw [if_neg (by simp only [hc]; decide), hf]

/-- Characterization of `processOne` on a successful fetch. -/
theorem processOne_ok (env : Env) (s : RState) (h : String) (ns : List String)
    (hc : (env.inLog h || s.fetching.contains h) = false)
    (hf : env.fetch h = some ns) :
    processOne env s h =
      ({ s with
          fetching := s.fetching ++ [h]
          events := s.events ++ [REvent.loadAdded h]
            ++ [REvent.loadProgress h (s.buffer ++ [h]).length]
          statsTasksStarted := s.statsTasksStarted + 1
          buffer := s.buffer ++ [h]
          queue := s.queue.erase h
          statsTasksProcessed := s.statsTasksProcessed + 1 }, Except.ok ns) := by
  unfold processOne
  rw [if_neg (by simp only [hc]; decide), hf]

/-- Bookkeeping invariant maintained by every operation of the engine, for an
arbitrary environment (fetch errors included): the queue and fetching maps are
duplicate-free and disjoint; no queued hash is already in the op-log;
`processed ≤ started`; `started` counts exactly the hashes ever marked
in-flight (the fetching map is never pruned); every started task and every
queued hash was requested; and `started − processed` never exceeds the
ceiling. -/
structure GenInv (env : Env) (s : RState) : Prop where
  nodupQ : s.queue.Nodup
  nodupF : s.fetching.Nodup
  disj : ∀ h ∈ s.queue, h ∉ s.fetching
  qNotLog : ∀ h ∈ s.queue, env.inLog h = false
  procLe : s.statsTasksProcessed ≤ s.statsTasksStarted
  startedF : s.statsTasksStarted = s.fetching.length
  reqB : s.statsTasksStarted + s.queue.length ≤ s.statsTasksRequested
  runB : s.statsTasksStarted - s.statsTasksProcessed ≤ s.concurrency

theorem genInv_init (env : Env) (c : Nat) : GenInv env (initState c) := by
  constructor <;> simp [initState]

/-- `loadStep` preserves the invariant. -/
theorem loadStep_genInv (env : Env) (s : RState) (h : String)
    (hs : GenInv env s) : GenInv env (loadStep env s h) := by
  unfold loadStep
  split
  · exact hs
  next hc =>
    simp only [Bool.or_eq_true, not_or, List.contains_eq_any_beq] at hc
    have hnf : h ∉ s.fetching := by
      intro hmem
      exact hc.1.1 (by simpa using hmem)
    have hnq : h ∉ s.queue := by
      intro hmem
      exact hc.1.2 (by simpa using hmem)
    have hnl : env.inLog h = false := by
      rcases hb : env.inLog h with _ | _
      · rfl
      · exact absurd hb hc.2
    refine ⟨?_, hs.nodupF, ?_, ?_, hs.procLe, hs.startedF, ?_, hs.runB⟩
    · simpa [addToQueue, List.nodup_append] using ⟨hs.nodupQ, hnq⟩
    · intro x hx
      simp only [addToQueue, List.mem_append, List.mem_singleton] at hx
      rcases hx with hx | rfl
      · exact hs.disj x hx
      · exact hnf
    · intro x hx
      simp only [addToQueue, List.mem_append, List.mem_singleton] at hx
      rcases hx with hx | rfl
      · exact hs.qNotLog x hx
      · exact hnl
    · have := hs.reqB
      simp only [addToQueue, List.length_append, List.length_singleton]
      omega

/-- `enqueueAll` preserves the invariant. -/
theorem enqueueAll_genInv (env : Env) (cids : List String) :
    ∀ s : RState, GenInv env s → GenInv env (enqueueAll env s cids) := by
  induction cids with
  | nil => intro s hs; exact hs
  | cons c cs ih =>
    intro s hs
    have : enqueueAll env s (c :: cs) = enqueueAll env (loadStep env s c) cs := rfl
    rw [this]
    exact ih _ (loadStep_genInv env s c hs)

/-- `flushCheck` preserves the invariant (it only touches buffer/events). -/
theorem flushCheck_genInv (env : Env) (s : RState) (n : Nat)
    (hs : GenInv env s) : GenInv env (flushCheck s n) := by
  unfold flushCheck
  split
  · exact ⟨hs.nodupQ, hs.nodupF, hs.disj, hs.qNotLog, hs.procLe, hs.startedF,
      hs.reqB, hs.runB⟩
  · exact hs

theorem loadStep_concurrency (env : Env) (s : RState) (h : String) :
    (loadStep env s h).concurrency = s.concurrency ∧
    (loadStep env s h).stopped = s.stopped := by
  unfold loadStep
  split
  · exact ⟨rfl, rfl⟩
  · exact ⟨rfl, rfl⟩

theorem enqueueAll_concurrency (env : Env) (cids : List String) :
    ∀ s : RState, (enqueueAll env s cids).concurrency = s.concurrency ∧
      (enqueueAll env s cids).stopped = s.stopped := by
  induction cids with
  | nil => intro s; exact ⟨rfl, rfl⟩
  | cons c cs ih =>
    intro s
    have h1 := loadStep_concurrency env s c
    have h2 := ih (loadStep env s c)
    exact ⟨h2.1.trans h1.1, h2.2.trans h1.2⟩

theorem flushCheck_concurrency (s : RState) (n : Nat) :
    (flushCheck s n).concurrency = s.concurrency ∧
    (flushCheck s n).stopped = s.stopped := by
  unfold flushCheck
  split
  · exact ⟨rfl, rfl⟩
  · exact ⟨rfl, rfl⟩

/-- Deleting a hash from the queue preserves the invariant. -/
theorem genInv_erase (env : Env) (s : RState) (h : String) (hs : GenInv env s) :
    GenInv env { s with queue := s.queue.erase h } := by
  refine ⟨hs.nodupQ.erase h, hs.nodupF, ?_, ?_, hs.procLe, hs.startedF, ?_, hs.runB⟩
  · intro x hx
    exact hs.disj x (List.mem_of_mem_erase hx)
  · intro x hx
    exact hs.qNotLog x (List.mem_of_mem_erase hx)
  · have hle : (s.queue.erase h).length ≤ s.queue.length :=
      (List.erase_sublist h s.queue).length_le
    have := hs.reqB
    simp only []
    omega


/-- Unfolding lemma for `runItems` on a cons cell. -/
theorem runItems_cons (env : Env) (s : RState) (h : String) (rest : List String) :
    runItems env s (h :: rest) =
      match processOne env { s with queue := s.queue.erase h } h with
      | (s2, Except.error _) => (s2, [], true)
      | (s2, Except.ok nexts) =>
        ((runItems env s2 rest).1, nexts :: (runItems env s2 rest).2.1,
          (runItems env s2 rest).2.2) := rfl

/-- One failing step of the batch loop, with the resulting state described
field by field. -/
theorem runItems_step_err (env : Env) (s : RState) (h : String)
    (hnlog : env.inLog h = false) (hnf : h ∉ s.fetching)
    (hf : env.fetch h = none) :
    ∃ s2, processOne env { s with queue := s.queue.erase h } h = (s2, Except.error ()) ∧
      s2.fetching = s.fetching ++ [h] ∧
      s2.queue = s.queue.erase h ∧
      s2.statsTasksRequested = s.statsTasksRequested ∧
      s2.statsTasksStarted = s.statsTasksStarted + 1 ∧
      s2.statsTasksProcessed = s.statsTasksProcessed ∧
      s2.buffer = s.buffer ∧
      s2.events = s.events ++ [REvent.loadAdded h] ∧
      s2.concurrency = s.concurrency ∧
      s2.stopped = s.stopped := by
  have hgate :
      (env.inLog h ||
        ({ s with queue := s.queue.erase h } : RState).fetching.contains h) = false := by
    show (env.inLog h || s.fetching.contains h) = false
    rw [hnlog]
    simp only [Bool.false_or]
    simpa using hnf
  exact ⟨_, processOne_err env _ h hgate hf, rfl, rfl, rfl, rfl, rfl, rfl, rfl, rfl, rfl⟩

/-- One successful step of the batch loop, with the resulting state described
field by field. -/
theorem runItems_step_ok (env : Env) (s : RState) (h : String) (ns : List String)
    (hnlog : env.inLog h = false) (hnf : h ∉ s.fetching)
    (hnd : s.queue.Nodup) (hf : env.fetch h = some ns) :
    ∃ s2, processOne env { s with queue := s.queue.erase h } h = (s2, Except.ok ns) ∧
      s2.fetching = s.fetching ++ [h] ∧
      s2.queue = s.queue.erase h ∧
      s2.statsTasksRequested = s.statsTasksRequested ∧
      s2.statsTasksStarted = s.statsTasksStarted + 1 ∧
      s2.statsTasksProcessed = s.statsTasksProcessed + 1 ∧
      s2.buffer = s.buffer ++ [h] ∧
      s2.events = s.events ++ [REvent.loadAdded h]
        ++ [REvent.loadProgress h (s.buffer ++ [h]).length] ∧
      s2.concurrency = s.concurrency ∧
      s2.stopped = s.stopped := by
  have hgate :
      (env.inLog h ||
        ({ s with queue := s.queue.erase h } : RState).fetching.contains h) = false := by
    show (env.inLog h || s.fetching.contains h) = false
    rw [hnlog]
    simp only [Bool.false_or]
    simpa using hnf
  have hh2 : h ∉ s.queue.erase h := by
    intro hmem2
    exact absurd ((hnd.mem_erase_iff).mp hmem2).1 (by simp)
  refine ⟨_, processOne_ok env _ h ns hgate hf, rfl, ?_, rfl, rfl, rfl, rfl, rfl, rfl, rfl⟩
  show (s.queue.erase h).erase h = s.queue.erase h
  exact List.erase_of_not_mem hh2

/-- The batch loop of `processQueue` preserves the invariant; it leaves the
ceiling and the stop flag alone, and when it does not abort it leaves
`tasksRunning` unchanged (every task it started also completed). -/
theorem runItems_spec (env : Env) :
    ∀ (items : List String) (s : RState),
      GenInv env s →
      tasksRunning s < s.concurrency →
      items.Nodup →
      (∀ x ∈ items, x ∈ s.queue) →
      GenInv env (runItems env s items).1 ∧
      (runItems env s items).1.concurrency = s.concurrency ∧
      (runItems env s items).1.stopped = s.stopped ∧
      ((runItems env s items).2.2 = false →
        tasksRunning (runItems env s items).1 = tasksRunning s) := by
  intro items
  induction items with
  | nil =>
    intro s hs hrun hnd hmem
    exact ⟨hs, rfl, rfl, fun _ => rfl⟩
  | cons h rest ih =>
    intro s hs hrun hnd hmem
    have hhq : h ∈ s.queue := hmem h (by simp)
    have hnlog : env.inLog h = false := hs.qNotLog h hhq
    have hnf : h ∉ s.fetching := hs.disj h hhq
    have hlen : (s.queue.erase h).length = s.queue.length - 1 :=
      List.length_erase_of_mem hhq
    have hqpos : 0 < s.queue.length := List.length_pos_of_mem hhq
    rcases hfetch : env.fetch h with _ | ns
    · -- fetch error: the round aborts
      obtain ⟨s2, hp, hf2, hq2, hreq2, hst2, hpr2, hb2, he2, hc2, hsp2⟩ :=
        runItems_step_err env s h hnlog hnf hfetch
      have hrw : runItems env s (h :: rest) = (s2, [], true) := by
        rw [runItems_cons env s h rest, hp]
      rw [hrw]
      have hs2 : GenInv env s2 := by
        refine ⟨?_, ?_, ?_, ?_, ?_, ?_, ?_, ?_⟩
        · rw [hq2]; exact hs.nodupQ.erase h
        · rw [hf2]
          simpa [List.nodup_append] using ⟨hs.nodupF, hnf⟩
        · intro x hx
          rw [hq2] at hx
          rw [hf2]
          have hxq : x ∈ s.queue := List.mem_of_mem_erase hx
          have hxne : x ≠ h := ((hs.nodupQ.mem_erase_iff).mp hx).1
          simp only [List.mem_append, List.mem_singleton, not_or]
          exact ⟨hs.disj x hxq, hxne⟩
        · intro x hx
          rw [hq2] at hx
          exact hs.qNotLog x (List.mem_of_mem_erase hx)
        · rw [hst2, hpr2]
          have := hs.procLe
          omega
        · rw [hst2, hf2]
          simp only [List.length_append, List.length_singleton]
          exact congrArg (· + 1) hs.startedF
        · rw [hst2, hq2, hreq2, hlen]
          have := hs.reqB
          omega
        · rw [hst2, hpr2, hc2]
          have := hs.procLe
          unfold tasksRunning at hrun
          omega
      exact ⟨hs2, hc2, hsp2, fun hfalse => Bool.noConfusion hfalse⟩
    · -- fetch success: continue with the rest of the batch
      obtain ⟨s2, hp, hf2, hq2, hreq2, hst2, hpr2, hb2, he2, hc2, hsp2⟩ :=
        runItems_step_ok env s h ns hnlog hnf hs.nodupQ hfetch
      have hrw : runItems env s (h :: rest) =
          ((runItems env s2 rest).1, ns :: (runItems env s2 rest).2.1,
            (runItems env s2 rest).2.2) := by
        rw [runItems_cons env s h rest, hp]
      rw [hrw]
      have hs2 : GenInv env s2 := by
        refine ⟨?_, ?_, ?_, ?_, ?_, ?_, ?_, ?_⟩
        · rw [hq2]; exact hs.nodupQ.erase h
        · rw [hf2]
          simpa [List.nodup_append] using ⟨hs.nodupF, hnf⟩
        · intro x hx
          rw [hq2] at hx
          rw [hf2]
          have hxq : x ∈ s.queue := List.mem_of_mem_erase hx
          have hxne : x ≠ h := ((hs.nodupQ.mem_erase_iff).mp hx).1
          simp only [List.mem_append, List.mem_singleton, not_or]
          exact ⟨hs.disj x hxq, hxne⟩
        · intro x hx
          rw [hq2] at hx
          exact hs.qNotLog x (List.mem_of_mem_erase hx)
        · rw [hst2, hpr2]
          have := hs.procLe
          omega
        · rw [hst2, hf2]
          simp only [List.length_append, List.length_singleton]
          exact congrArg (· + 1) hs.startedF
        · rw [hst2, hq2, hreq2, hlen]
          have := hs.reqB
          omega
        · rw [hst2, hpr2, hc2]
          have := hs.runB
          omega
      have hruneq : tasksRunning s2 = tasksRunning s := by
        unfold tasksRunning
        rw [hst2, hpr2]
        omega
      have hmem2 : ∀ x ∈ rest, x ∈ s2.queue := by
        intro x hx
        rw [hq2]
        have hxq : x ∈ s.queue := hmem x (by simp [hx])
        have hxh : x ≠ h := by
          intro heq
          subst heq
          exact absurd hx (List.nodup_cons.mp hnd).1
        exact (List.mem_erase_of_ne hxh).mpr hxq
      obtain ⟨g1, g2, g3, g4⟩ :=
        ih s2 hs2 (by rw [hruneq, hc2]; exact hrun) (List.nodup_cons.mp hnd).2 hmem2
      refine ⟨g1, g2.trans hc2, g3.trans hsp2, ?_⟩
      intro hab
      rw [g4 hab, hruneq]

/-- Unfolding lemma for `flushFold` on a cons cell. -/
theorem flushFold_cons (load : RState → List String → RState) (n : Nat)
    (s : RState) (hashes : List String) (rest : List (List String)) :
    flushFold load n s (hashes :: rest) =
      flushFold load n
        (if hashes.isEmpty then flushCheck s n else load (flushCheck s n) hashes)
        rest := rfl

/-- Unfolding lemma for `processQueue` at positive fuel. -/
theorem processQueue_succ (env : Env) (fuel : Nat) (s : RState) :
    processQueue env (fuel + 1) s =
      if s.concurrency ≤ tasksRunning s then s
      else
        match runItems env s
            (s.queue.take (min (s.concurrency - tasksRunning s) s.queue.length)) with
        | (s1, _, true) => s1
        | (s1, hl, false) =>
          flushFold (fun st cs => processQueue env fuel (enqueueAll env st cs))
            (s.queue.take (min (s.concurrency - tasksRunning s) s.queue.length)).length
            s1 hl := rfl

/-- The flush/recursion loop preserves the invariant, given that the nested
dispatch does. -/
theorem flushFold_genInv (env : Env) (fuel itemsLen : Nat)
    (ihpq : ∀ s : RState, GenInv env s →
      GenInv env (processQueue env fuel s) ∧
      (processQueue env fuel s).concurrency = s.concurrency ∧
      (processQueue env fuel s).stopped = s.stopped) :
    ∀ (hl : List (List String)) (s : RState), GenInv env s →
      GenInv env
        (flushFold (fun st cs => processQueue env fuel (enqueueAll env st cs))
          itemsLen s hl) ∧
      (flushFold (fun st cs => processQueue env fuel (enqueueAll env st cs))
          itemsLen s hl).concurrency = s.concurrency ∧
      (flushFold (fun st cs => processQueue env fuel (enqueueAll env st cs))
          itemsLen s hl).stopped = s.stopped := by
  intro hl
  induction hl with
  | nil => intro s hs; exact ⟨hs, rfl, rfl⟩
  | cons hashes rest ih =>
    intro s hs
    rw [flushFold_cons]
    split
    · obtain ⟨g1, g2, g3⟩ := ih (flushCheck s itemsLen) (flushCheck_genInv env s itemsLen hs)
      have hfc := flushCheck_concurrency s itemsLen
      exact ⟨g1, g2.trans hfc.1, g3.trans hfc.2⟩
    · have hfcInv := flushCheck_genInv env s itemsLen hs
      have hfc := flushCheck_concurrency s itemsLen
      have heInv := enqueueAll_genInv env hashes (flushCheck s itemsLen) hfcInv
      have hec := enqueueAll_concurrency env hashes (flushCheck s itemsLen)
      obtain ⟨p1, p2, p3⟩ := ihpq _ heInv
      obtain ⟨g1, g2, g3⟩ := ih _ p1
      refine ⟨g1, ?_, ?_⟩
      · exact g2.trans (p2.trans (hec.1.trans hfc.1))
      · exact g3.trans (p3.trans (hec.2.trans hfc.2))

/-- `processQueue` preserves the invariant at any fuel. -/
theorem processQueue_genInv (env : Env) :
    ∀ (fuel : Nat) (s : RState), GenInv env s →
      GenInv env (processQueue env fuel s) ∧
      (processQueue env fuel s).concurrency = s.concurrency ∧
      (processQueue env fuel s).stopped = s.stopped := by
  intro fuel
  induction fuel with
  | zero => intro s hs; exact ⟨hs, rfl, rfl⟩
  | succ fuel ih =>
    intro s hs
    rw [processQueue_succ]
    split
    · exact ⟨hs, rfl, rfl⟩
    next hguard =>
      have hrun : tasksRunning s < s.concurrency := Nat.lt_of_not_le hguard
      have hnd : (s.queue.take (min (s.concurrency - tasksRunning s) s.queue.length)).Nodup :=
        hs.nodupQ.sublist (List.take_sublist _ _)
      have hmem : ∀ x ∈ s.queue.take (min (s.concurrency - tasksRunning s) s.queue.length),
          x ∈ s.queue := fun x hx => List.take_subset _ _ hx
      have hspec := runItems_spec env _ s hs hrun hnd hmem
      rcases hri : runItems env s
          (s.queue.take (min (s.concurrency - tasksRunning s) s.queue.length)) with
        ⟨s1, hl, ab⟩
      rw [hri] at hspec
      cases ab with
      | true => exact ⟨hspec.1, hspec.2.1, hspec.2.2.1⟩
      | false =>
        obtain ⟨g1, g2, g3⟩ := flushFold_genInv env fuel _ ih hl s1 hspec.1
        exact ⟨g1, g2.trans hspec.2.1, g3.trans hspec.2.2.1⟩

/-- Every reachable engine state satisfies the bookkeeping invariant, and its
ceiling is the one fixed at construction (with the 0 → 128 default). -/
theorem reach_genInv (env : Env) (c : Nat) (s : RState) (hs : Reach env c s) :
    GenInv env s ∧ s.concurrency = (if c = 0 then 128 else c) := by
  induction hs with
  | init => exact ⟨genInv_init env c, rfl⟩
  | @load t fuel cids hr ih =>
    obtain ⟨g, hc⟩ := ih
    have hg2 := enqueueAll_genInv env cids t g
    obtain ⟨p1, p2, _⟩ := processQueue_genInv env fuel (enqueueAll env t cids) hg2
    have hec := enqueueAll_concurrency env cids t
    exact ⟨p1, p2.trans (hec.1.trans hc)⟩
  | @drain t fuel hr ih =>
    obtain ⟨g, hc⟩ := ih
    obtain ⟨p1, p2, _⟩ := processQueue_genInv env fuel t g
    exact ⟨p1, p2.trans hc⟩
  | @wake t fuel hr ih =>
    obtain ⟨g, hc⟩ := ih
    unfold watchdogWake
    split
    · exact ⟨g, hc⟩
    · split
      · obtain ⟨p1, p2, _⟩ := processQueue_genInv env fuel t g
        exact ⟨p1, p2.trans hc⟩
      · exact ⟨g, hc⟩
  | @stop t hr ih =>
    obtain ⟨g, hc⟩ := ih
    exact ⟨⟨g.nodupQ, g.nodupF, g.disj, g.qNotLog, g.procLe, g.startedF,
      g.reqB, g.runB⟩, hc⟩

/-! ### Claim C5 -/

/-- Claim C5: in every reachable engine state, no hash is simultaneously
queued and in flight, and no hash present in the local op-log is ever in the
queue — the dedup gate of `Load` (and the discovery recursion, which also goes
through it) never enqueues a hash whose entry is in the log.  (The op-log is
external state that the replicator never mutates; it is fixed per
environment.) -/
theorem dedup_invariant (env : Env) (c : Nat) (s : RState) (hs : Reach env c s) :
    (∀ h : String, ¬(h ∈ s.queue ∧ h ∈ s.fetching)) ∧
    (∀ h : String, env.inLog h = true → h ∉ s.queue) := by
  obtain ⟨g, _⟩ := reach_genInv env c s hs
  constructor
  · intro h hmem
    exact g.disj h hmem.1 hmem.2
  · intro h hlog hq
    rw [g.qNotLog h hq] at hlog
    cases hlog

/-- Witness for C5 at a concrete reachable state. -/
theorem dedup_invariant_witness :
    (∀ h : String, ¬(h ∈ stateCeilOne.queue ∧ h ∈ stateCeilOne.fetching)) ∧
    (∀ h : String, envThree.inLog h = true → h ∉ stateCeilOne.queue) :=
  dedup_invariant envThree 1 stateCeilOne
    (Reach.load 9 ["h1", "h2", "h3"] Reach.init)

/-! ### Claim C4 -/

/-- Claim C4: in every reachable state, `started − processed` is bounded by the
configured ceiling (which is 128 when the engine was constructed with
concurrency 0); `processQueue` returns immediately, dispatching nothing, when
`tasksRunning()` has reached the ceiling; and otherwise the batch it selects
from the queue snapshot has at most `ceiling − tasksRunning()` hashes. -/
theorem concurrency_ceiling (env : Env) (c fuel : Nat) (s t : RState)
    (hs : Reach env c s) :
    s.statsTasksStarted - s.statsTasksProcessed ≤ s.concurrency ∧
    s.concurrency = (if c = 0 then 128 else c) ∧
    (initState 0).concurrency = 128 ∧
    (t.concurrency ≤ tasksRunning t → processQueue env (fuel + 1) t = t) ∧
    (t.queue.take (min (t.concurrency - tasksRunning t) t.queue.length)).length
      ≤ t.concurrency - tasksRunning t := by
  obtain ⟨g, hc⟩ := reach_genInv env c s hs
  refine ⟨g.runB, hc, rfl, ?_, ?_⟩
  · intro hguard
    rw [processQueue_succ, if_pos hguard]
  · rw [List.length_take]
    exact le_trans (min_le_left _ _) (min_le_left _ _)

/-- Witness for C4 at a concrete reachable state. -/
theorem concurrency_ceiling_witness :
    stateCeilOne.statsTasksStarted - stateCeilOne.statsTasksProcessed
        ≤ stateCeilOne.concurrency ∧
    stateCeilOne.concurrency = (if 1 = 0 then 128 else 1) ∧
    (initState 0).concurrency = 128 ∧
    ((initState 2).concurrency ≤ tasksRunning (initState 2) →
      processQueue envThree (5 + 1) (initState 2) = initState 2) ∧
    ((initState 2).queue.take
        (min ((initState 2).concurrency - tasksRunning (initState 2))
          (initState 2).queue.length)).length
      ≤ (initState 2).concurrency - tasksRunning (initState 2) :=
  concurrency_ceiling envThree 1 5 stateCeilOne (initState 2)
    (Reach.load 9 ["h1", "h2", "h3"] Reach.init)

/-! ### Claim C3 (amended part) -/

/-- Claim C3 (amended): over all reachable states the counters satisfy
`requested ≥ started ≥ processed`; however `started − processed` does not
equal the size of the in-flight map — the code never prunes `r.fetching`, so
its size always equals `statsTasksStarted` (every hash ever started), not the
number of unfinished tasks.  (See the counterexample for the original
equality.) -/
theorem counters_ordered_fetching_unpruned (env : Env) (c : Nat) (s : RState)
    (hs : Reach env c s) :
    s.statsTasksProcessed ≤ s.statsTasksStarted ∧
    s.statsTasksStarted ≤ s.statsTasksRequested ∧
    s.statsTasksStarted = s.fetching.length := by
  obtain ⟨g, _⟩ := reach_genInv env c s hs
  exact ⟨g.procLe, le_trans (Nat.le_add_right _ _) g.reqB, g.startedF⟩

/-- Witness for the amended C3 at a concrete reachable state. -/
theorem counters_ordered_witness :
    stateCeilOne.statsTasksProcessed ≤ stateCeilOne.statsTasksStarted ∧
    stateCeilOne.statsTasksStarted ≤ stateCeilOne.statsTasksRequested ∧
    stateCeilOne.statsTasksStarted = stateCeilOne.fetching.length :=
  counters_ordered_fetching_unpruned envThree 1 stateCeilOne
    (Reach.load 9 ["h1", "h2", "h3"] Reach.init)

/-! ### Claim C7 -/

/-- The invariant survives one successful fetch step, stated on projections. -/
theorem genInv_after_ok (env : Env) (s s2 : RState) (h : String)
    (hs : GenInv env s) (hhq : h ∈ s.queue)
    (hf2 : s2.fetching = s.fetching ++ [h])
    (hq2 : s2.queue = s.queue.erase h)
    (hreq2 : s2.statsTasksRequested = s.statsTasksRequested)
    (hst2 : s2.statsTasksStarted = s.statsTasksStarted + 1)
    (hpr2 : s2.statsTasksProcessed = s.statsTasksProcessed + 1)
    (hc2 : s2.concurrency = s.concurrency) :
    GenInv env s2 := by
  have hnf : h ∉ s.fetching := hs.disj h hhq
  have hlen : (s.queue.erase h).length = s.queue.length - 1 :=
    List.length_erase_of_mem hhq
  have hqpos : 0 < s.queue.length := List.length_pos_of_mem hhq
  refine ⟨?_, ?_, ?_, ?_, ?_, ?_, ?_, ?_⟩
  · rw [hq2]; exact hs.nodupQ.erase h
  · rw [hf2]
    simpa [List.nodup_append] using ⟨hs.nodupF, hnf⟩
  · intro x hx
    rw [hq2] at hx
    rw [hf2]
    have hxq : x ∈ s.queue := List.mem_of_mem_erase hx
    have hxne : x ≠ h := ((hs.nodupQ.mem_erase_iff).mp hx).1
    simp only [List.mem_append, List.mem_singleton, not_or]
    exact ⟨hs.disj x hxq, hxne⟩
  · intro x hx
    rw [hq2] at hx
    exact hs.qNotLog x (List.mem_of_mem_erase hx)
  · rw [hst2, hpr2]
    have := hs.procLe
    omega
  · rw [hst2, hf2]
    simp only [List.length_append, List.length_singleton]
    exact congrArg (· + 1) hs.startedF
  · rw [hst2, hq2, hreq2, hlen]
    have := hs.reqB
    omega
  · rw [hst2, hpr2, hc2]
    have := hs.runB
    omega

/-- When some selected hash fails to fetch (all earlier batch items having
succeeded), the batch loop aborts there: earlier items were processed, the
failing hash was started but not processed, later items were not attempted and
are still queued, no flush happened, and the requested counter is untouched. -/
theorem runItems_abort (env : Env) :
    ∀ (pre : List String) (s : RState) (hfail : String) (post : List String),
      GenInv env s →
      tasksRunning s < s.concurrency →
      (pre ++ hfail :: post).Nodup →
      (∀ x ∈ pre ++ hfail :: post, x ∈ s.queue) →
      (∀ x ∈ pre, ∃ ns, env.fetch x = some ns) →
      env.fetch hfail = none →
      (runItems env s (pre ++ hfail :: post)).2.2 = true ∧
      (runItems env s (pre ++ hfail :: post)).1.statsTasksProcessed
        = s.statsTasksProcessed + pre.length ∧
      (runItems env s (pre ++ hfail :: post)).1.statsTasksStarted
        = s.statsTasksStarted + pre.length + 1 ∧
      (runItems env s (pre ++ hfail :: post)).1.buffer = s.buffer ++ pre ∧
      (∀ x ∈ post, x ∈ (runItems env s (pre ++ hfail :: post)).1.queue) ∧
      countLoadEnd (runItems env s (pre ++ hfail :: post)).1.events
        = countLoadEnd s.events ∧
      (runItems env s (pre ++ hfail :: post)).1.statsTasksRequested
        = s.statsTasksRequested := by
  intro pre
  induction pre with
  | nil =>
    intro s hfail post hs hrun hnd hmem hpre hffail
    have hhq : hfail ∈ s.queue := hmem hfail (by simp)
    obtain ⟨s2, hp, hf2, hq2, hreq2, hst2, hpr2, hb2, he2, hc2, hsp2⟩ :=
      runItems_step_err env s hfail (hs.qNotLog hfail hhq) (hs.disj hfail hhq) hffail
    have hrw : runItems env s ([] ++ hfail :: post) = (s2, [], true) := by
      rw [List.nil_append, runItems_cons env s hfail post, hp]
    rw [hrw]
    refine ⟨rfl, ?_, ?_, ?_, ?_, ?_, ?_⟩
    · rw [hpr2]; simp
    · rw [hst2]; simp
    · rw [hb2]; simp
    · intro x hx
      rw [hq2]
      have hxq : x ∈ s.queue := hmem x (by simp [hx])
      have hxne : x ≠ hfail := by
        intro heq
        subst heq
        exact absurd hx (List.nodup_cons.mp (by simpa using hnd)).1
      exact (List.mem_erase_of_ne hxne).mpr hxq
    · rw [he2, countLoadEnd_append, countLoadEnd_loadAdded]
      omega
    · exact hreq2
  | cons p pre ih =>
    intro s hfail post hs hrun hnd hmem hpre hffail
    obtain ⟨ns, hns⟩ := hpre p (by simp)
    have hpq : p ∈ s.queue := hmem p (by simp)
    obtain ⟨s2, hp, hf2, hq2, hreq2, hst2, hpr2, hb2, he2, hc2, hsp2⟩ :=
      runItems_step_ok env s p ns (hs.qNotLog p hpq) (hs.disj p hpq) hs.nodupQ hns
    have hnd2 : (p :: (pre ++ hfail :: post)).Nodup := by simpa using hnd
    have hrw : runItems env s ((p :: pre) ++ hfail :: post) =
        ((runItems env s2 (pre ++ hfail :: post)).1,
          ns :: (runItems env s2 (pre ++ hfail :: post)).2.1,
          (runItems env s2 (pre ++ hfail :: post)).2.2) := by
      rw [List.cons_append, runItems_cons env s p (pre ++ hfail :: post), hp]
    rw [hrw]
    have hs2 : GenInv env s2 :=
      genInv_after_ok env s s2 p hs hpq hf2 hq2 hreq2 hst2 hpr2 hc2
    have hrun2 : tasksRunning s2 < s2.concurrency := by
      unfold tasksRunning
      rw [hst2, hpr2, hc2]
      unfold tasksRunning at hrun
      have := hs.procLe
      omega
    have hmem2 : ∀ x ∈ pre ++ hfail :: post, x ∈ s2.queue := by
      intro x hx
      rw [hq2]
      have hxq : x ∈ s.queue := hmem x (by simp [hx])
      have hxne : x ≠ p := by
        intro heq
        subst heq
        exact absurd hx (List.nodup_cons.mp hnd2).1
      exact (List.mem_erase_of_ne hxne).mpr hxq
    obtain ⟨g0, g1, g2, g3, g4, g5, g6⟩ :=
      ih s2 hfail post hs2 hrun2 (List.nodup_cons.mp hnd2).2 hmem2
        (fun x hx => hpre x (by simp [hx])) hffail
    refine ⟨g0, ?_, ?_, ?_, g4, ?_, ?_⟩
    · rw [g1, hpr2]
      simp only [List.length_cons]
      omega
    · rw [g2, hst2]
      simp only [List.length_cons]
      omega
    · rw [g3, hb2]
      simp
    · rw [g5, he2, countLoadEnd_append, countLoadEnd_append,
        countLoadEnd_loadAdded, countLoadEnd_loadProgress]
      omega
    · rw [g6, hreq2]

/-- Claim C7: when the fetch of a selected hash fails (earlier batch items
having succeeded), the `processQueue` round aborts: the processed counter is
not incremented for the failing hash (only for the earlier successes), the
failing hash was started, the not-yet-attempted selected hashes are still in
the queue for later retry, no flush (`EventLoadEnd`) happens in the aborted
round, the buffer keeps the fragments fetched before the failure, and the
requested counter is untouched.  (`processQueue` and `Load` return no error to
the caller: in the code both have no return value, the error is only logged;
in this model they are total functions into `RState`.) -/
theorem fetch_error_aborts_round (env : Env) (fuel : Nat) (s : RState)
    (pre post : List String) (hfail : String)
    (hs : GenInv env s)
    (hguard : tasksRunning s < s.concurrency)
    (hitems : s.queue.take (min (s.concurrency - tasksRunning s) s.queue.length)
      = pre ++ hfail :: post)
    (hpre : ∀ x ∈ pre, ∃ ns, env.fetch x = some ns)
    (hffail : env.fetch hfail = none) :
    (processQueue env (fuel + 1) s).statsTasksProcessed
      = s.statsTasksProcessed + pre.length ∧
    (processQueue env (fuel + 1) s).statsTasksStarted
      = s.statsTasksStarted + pre.length + 1 ∧
    (∀ x ∈ post, x ∈ (processQueue env (fuel + 1) s).queue) ∧
    countLoadEnd (processQueue env (fuel + 1) s).events = countLoadEnd s.events ∧
    (processQueue env (fuel + 1) s).buffer = s.buffer ++ pre ∧
    (processQueue env (fuel + 1) s).statsTasksRequested = s.statsTasksRequested := by
  have hnd : (pre ++ hfail :: post).Nodup := by
    rw [← hitems]
    exact hs.nodupQ.sublist (List.take_sublist _ _)
  have hmem : ∀ x ∈ pre ++ hfail :: post, x ∈ s.queue := by
    intro x hx
    rw [← hitems] at hx
    exact List.take_subset _ _ hx
  obtain ⟨g0, g1, g2, g3, g4, g5, g6⟩ :=
    runItems_abort env pre s hfail post hs hguard hnd hmem hpre hffail
  rw [processQueue_succ, if_neg (not_le.mpr hguard), hitems]
  rcases hri : runItems env s (pre ++ hfail :: post) with ⟨s1, hl, ab⟩
  rw [hri] at g0 g1 g2 g3 g4 g5 g6
  have hab : ab = true := g0
  subst hab
  exact ⟨g1, g2, g4, g5, g3, g6⟩

/-- A reachable-shaped state used by the C7 witness: three queued hashes,
ceiling 3; under `envOne` the fetch of `h1` succeeds and that of `h2` fails. -/
def sAbort : RState :=
  { initState 3 with queue := ["h1", "h2", "h3"], statsTasksRequested := 3 }

/-- Witness for C7: with queue `[h1, h2, h3]`, `h1` fetchable and `h2` failing,
a dispatch round processes `h1`, starts but does not process `h2`, leaves `h3`
queued, and flushes nothing. -/
theorem fetch_error_aborts_round_witness :
    (processQueue envOne (5 + 1) sAbort).statsTasksProcessed
      = sAbort.statsTasksProcessed + (["h1"] : List String).length ∧
    (processQueue envOne (5 + 1) sAbort).statsTasksStarted
      = sAbort.statsTasksStarted + (["h1"] : List String).length + 1 ∧
    (∀ x ∈ (["h3"] : List String), x ∈ (processQueue envOne (5 + 1) sAbort).queue) ∧
    countLoadEnd (processQueue envOne (5 + 1) sAbort).events
      = countLoadEnd sAbort.events ∧
    (processQueue envOne (5 + 1) sAbort).buffer = sAbort.buffer ++ ["h1"] ∧
    (processQueue envOne (5 + 1) sAbort).statsTasksRequested
      = sAbort.statsTasksRequested := by
  refine fetch_error_aborts_round envOne 5 sAbort ["h1"] ["h3"] "h2"
    ⟨by decide, by decide, by decide, by decide, by decide, by decide, by decide,
      by decide⟩
    (by decide) (by decide) ?_ rfl
  intro x hx
  simp only [List.mem_singleton] at hx
  subst hx
  exact ⟨[], rfl⟩

/-! ### Claim C9 (amended part): Stop only affects the watchdog -/

theorem Stop_fetching (s : RState) : (Stop s).fetching = s.fetching := rfl

theorem Stop_queue (s : RState) : (Stop s).queue = s.queue := rfl

theorem Stop_buffer (s : RState) : (Stop s).buffer = s.buffer := rfl

theorem Stop_events (s : RState) : (Stop s).events = s.events := rfl

theorem Stop_concurrency (s : RState) : (Stop s).concurrency = s.concurrency := rfl

theorem tasksRunning_Stop (s : RState) : tasksRunning (Stop s) = tasksRunning s := rfl

/-- The dedup gate ignores the stop flag. -/
theorem loadStep_Stop (env : Env) (s : RState) (h : String) :
    loadStep env (Stop s) h = Stop (loadStep env s h) := by
  show (if s.fetching.contains h || s.queue.contains h || env.inLog h then Stop s
      else addToQueue (Stop s) h) = Stop (loadStep env s h)
  unfold loadStep
  by_cases hc : (s.fetching.contains h || s.queue.contains h || env.inLog h) = true
  · rw [if_pos hc, if_pos hc]
  · rw [if_neg hc, if_neg hc]
    rfl

/-- The whole gate loop ignores the stop flag. -/
theorem enqueueAll_Stop (env : Env) (cids : List String) :
    ∀ s : RState, enqueueAll env (Stop s) cids = Stop (enqueueAll env s cids) := by
  induction cids with
  | nil => intro s; rfl
  | cons c cs ih =>
    intro s
    show enqueueAll env (loadStep env (Stop s) c) cs = _
    rw [loadStep_Stop]
    exact ih (loadStep env s c)

/-- A single fetch ignores the stop flag. -/
theorem processOne_Stop (env : Env) (s : RState) (h : String) :
    processOne env (Stop s) h
      = (Stop (processOne env s h).1, (processOne env s h).2) := by
  by_cases hc : (env.inLog h || s.fetching.contains h) = true
  · rw [processOne_skip env (Stop s) h hc, processOne_skip env s h hc]
  · have hc' : (env.inLog h || s.fetching.contains h) = false := by
      rcases hb : (env.inLog h || s.fetching.contains h) with _ | _
      · rfl
      · exact absurd hb hc
    rcases hf : env.fetch h with _ | ns
    · rw [processOne_err env (Stop s) h hc' hf, processOne_err env s h hc' hf]
      rfl
    · rw [processOne_ok env (Stop s) h ns hc' hf, processOne_ok env s h ns hc' hf]
      rfl

/-- The batch loop ignores the stop flag. -/
theorem runItems_Stop (env : Env) :
    ∀ (items : List String) (s : RState),
      runItems env (Stop s) items
        = (Stop (runItems env s items).1, (runItems env s items).2) := by
  intro items
  induction items with
  | nil => intro s; rfl
  | cons h rest ih =>
    intro s
    have hcast : ({ Stop s with queue := (Stop s).queue.erase h } : RState)
        = Stop { s with queue := s.queue.erase h } := rfl
    rcases hp : processOne env { s with queue := s.queue.erase h } h with ⟨s2, res⟩
    have hps := processOne_Stop env { s with queue := s.queue.erase h } h
    rw [hp] at hps
    dsimp only at hps
    rw [runItems_cons env (Stop s) h rest, runItems_cons env s h rest, hcast, hps, hp]
    cases res with
    | error e => rfl
    | ok ns =>
      exact congrArg (fun r => (r.1, ns :: r.2.1, r.2.2)) (ih s2)

/-- The flush conditional ignores the stop flag. -/
theorem flushCheck_Stop (s : RState) (n : Nat) :
    flushCheck (Stop s) n = Stop (flushCheck s n) := by
  show (if (0 < n ∧ 0 < s.buffer.length) ∨ (tasksRunning s = 0 ∧ 0 < s.buffer.length)
      then { Stop s with buffer := [], events := s.events ++ [REvent.loadEnd s.buffer] }
      else Stop s) = Stop (flushCheck s n)
  unfold flushCheck
  by_cases hc : (0 < n ∧ 0 < s.buffer.length) ∨ (tasksRunning s = 0 ∧ 0 < s.buffer.length)
  · rw [if_pos hc, if_pos hc]
    rfl
  · rw [if_neg hc, if_neg hc]

/-- The flush/recursion loop ignores the stop flag, given that the nested
dispatch does. -/
theorem flushFold_Stop (env : Env) (fuel n : Nat)
    (ihpq : ∀ s : RState, processQueue env fuel (Stop s) = Stop (processQueue env fuel s)) :
    ∀ (hl : List (List String)) (s : RState),
      flushFold (fun st cs => processQueue env fuel (enqueueAll env st cs)) n (Stop s) hl
        = Stop (flushFold (fun st cs => processQueue env fuel (enqueueAll env st cs)) n s hl) := by
  intro hl
  induction hl with
  | nil => intro s; rfl
  | cons hashes rest ih =>
    intro s
    rw [flushFold_cons, flushFold_cons, flushCheck_Stop]
    by_cases he : hashes.isEmpty = true
    · rw [if_pos he, if_pos he]
      exact ih (flushCheck s n)
    · rw [if_neg he, if_neg he]
      rw [enqueueAll_Stop, ihpq]
      exact ih _

/-- `processQueue` ignores the stop flag entirely. -/
theorem processQueue_Stop (env : Env) :
    ∀ (fuel : Nat) (s : RState),
      processQueue env fuel (Stop s) = Stop (processQueue env fuel s) := by
  intro fuel
  induction fuel with
  | zero => intro s; rfl
  | succ fuel ih =>
    intro s
    rw [processQueue_succ, processQueue_succ]
    simp only [Stop_concurrency, tasksRunning_Stop, Stop_queue]
    by_cases hg : s.concurrency ≤ tasksRunning s
    · rw [if_pos hg, if_pos hg]
    · rw [if_neg hg, if_neg hg]
      rcases hri : runItems env s
          (s.queue.take (min (s.concurrency - tasksRunning s) s.queue.length)) with
        ⟨s1, hl, ab⟩
      have hrs := runItems_Stop env
        (s.queue.take (min (s.concurrency - tasksRunning s) s.queue.length)) s
      rw [hri] at hrs
      dsimp only at hrs
      rw [hrs]
      cases ab with
      | true => rfl
      | false => exact flushFold_Stop env fuel _ ih hl s1

/-- Claim C9 (amended): `Stop()` cancels only the watchdog's context.  A
watchdog wake after `Stop` exits without dispatching and leaves the state
unchanged; but `Load` (and its `processQueue`) never consults the
cancellation, so a `Load` issued after `Stop` performs exactly the same
mutations and event emissions as it would have before `Stop` (the flag
remaining set) — it is not a no-op (see the counterexample). -/
theorem stop_only_cancels_watchdog (env : Env) (fuel : Nat) (s : RState)
    (cids : List String) :
    watchdogWake env fuel (Stop s) = (Stop s, false) ∧
    Load env fuel (Stop s) cids = Stop (Load env fuel s cids) := by
  constructor
  · unfold watchdogWake
    rw [if_pos (show (Stop s).stopped = true from rfl)]
  · show processQueue env fuel (enqueueAll env (Stop s) cids)
      = Stop (processQueue env fuel (enqueueAll env s cids))
    rw [enqueueAll_Stop, processQueue_Stop]

/-! ### Monotonicity of the processed counter (used for C10) -/

theorem processOne_processed_mono (env : Env) (s : RState) (h : String) :
    s.statsTasksProcessed ≤ (processOne env s h).1.statsTasksProcessed := by
  unfold processOne
  split
  · exact Nat.le_refl _
  · split
    · exact Nat.le_refl _
    · exact Nat.le_succ _

theorem runItems_processed_mono (env : Env) :
    ∀ (items : List String) (s : RState),
      s.statsTasksProcessed ≤ (runItems env s items).1.statsTasksProcessed := by
  intro items
  induction items with
  | nil => intro s; exact Nat.le_refl _
  | cons h rest ih =>
    intro s
    rw [runItems_cons env s h rest]
    rcases hp : processOne env { s with queue := s.queue.erase h } h with ⟨s2, res⟩
    have hmono := processOne_processed_mono env { s with queue := s.queue.erase h } h
    rw [hp] at hmono
    cases res with
    | error e => exact hmono
    | ok ns => exact le_trans hmono (ih s2)

theorem loadStep_processed (env : Env) (s : RState) (h : String) :
    (loadStep env s h).statsTasksProcessed = s.statsTasksProcessed := by
  unfold loadStep
  split
  · rfl
  · rfl

theorem enqueueAll_processed (env : Env) (cids : List String) :
    ∀ s : RState, (enqueueAll env s cids).statsTasksProcessed = s.statsTasksProcessed := by
  induction cids with
  | nil => intro s; rfl
  | cons c cs ih =>
    intro s
    show (enqueueAll env (loadStep env s c) cs).statsTasksProcessed = _
    rw [ih, loadStep_processed]

theorem flushCheck_processed (s : RState) (n : Nat) :
    (flushCheck s n).statsTasksProcessed = s.statsTasksProcessed := by
  unfold flushCheck
  split
  · rfl
  · rfl

theorem flushFold_processed_mono (env : Env) (fuel n : Nat)
    (ihpq : ∀ s : RState,
      s.statsTasksProcessed ≤ (processQueue env fuel s).statsTasksProcessed) :
    ∀ (hl : List (List String)) (s : RState),
      s.statsTasksProcessed ≤
        (flushFold (fun st cs => processQueue env fuel (enqueueAll env st cs))
          n s hl).statsTasksProcessed := by
  intro hl
  induction hl with
  | nil => intro s; exact Nat.le_refl _
  | cons hashes rest ih =>
    intro s
    rw [flushFold_cons]
    split
    · exact le_trans (Nat.le_of_eq (flushCheck_processed s n).symm) (ih _)
    · refine le_trans ?_ (ih _)
      refine le_trans (Nat.le_of_eq (flushCheck_processed s n).symm) ?_
      refine le_trans ?_ (ihpq _)
      exact Nat.le_of_eq (enqueueAll_processed env hashes (flushCheck s n)).symm

theorem processQueue_processed_mono (env : Env) :
    ∀ (fuel : Nat) (s : RState),
      s.statsTasksProcessed ≤ (processQueue env fuel s).statsTasksProcessed := by
  intro fuel
  induction fuel with
  | zero => intro s; exact Nat.le_refl _
  | succ fuel ih =>
    intro s
    rw [processQueue_succ]
    split
    · exact Nat.le_refl _
    · rcases hri : runItems env s
          (s.queue.take (min (s.concurrency - tasksRunning s) s.queue.length)) with
        ⟨s1, hl, ab⟩
      have hmono := runItems_processed_mono env
        (s.queue.take (min (s.concurrency - tasksRunning s) s.queue.length)) s
      rw [hri] at hmono
      cases ab with
      | true => exact hmono
      | false => exact le_trans hmono (flushFold_processed_mono env fuel _ ih hl s1)

/-! ### Claim C10 (amended part) -/

/-- Claim C10 (amended): a watchdog wake invokes `processQueue` if and only if
the engine is not stopped, no tasks are in flight, and the queue is non-empty;
after cancellation a wake does nothing and dispatches nothing; an invoked wake
runs exactly `processQueue`; and an invoked wake whose queue head is fetchable
processes at least one queued hash.  (One wake need not drain the whole queue
within a single interval when the queue exceeds the ceiling — see the
counterexample.) -/
theorem watchdog_wake_spec (env : Env) (fuel : Nat) (s : RState) (h0 : String)
    (qtail : List String) :
    ((watchdogWake env fuel s).2 = true ↔
      (s.stopped = false ∧ tasksRunning s = 0 ∧ 0 < s.queue.length)) ∧
    (s.stopped = true → watchdogWake env fuel s = (s, false)) ∧
    ((watchdogWake env fuel s).2 = true →
      (watchdogWake env fuel s).1 = processQueue env fuel s) ∧
    (GenInv env s → s.stopped = false → tasksRunning s = 0 →
      s.queue = h0 :: qtail → (env.fetch h0).isSome = true →
      0 < s.concurrency →
      s.statsTasksProcessed + 1 ≤
        (watchdogWake env (fuel + 1) s).1.statsTasksProcessed) := by
  refine ⟨?_, ?_, ?_, ?_⟩
  · unfold watchdogWake
    split
    next hst =>
      constructor
      · intro hfalse
        exact Bool.noConfusion hfalse
      · rintro ⟨h1, h2, h3⟩
        rw [hst] at h1
        exact Bool.noConfusion h1
    next hst =>
      have hst2 : s.stopped = false := by
        rcases hb : s.stopped with _ | _
        · rfl
        · exact absurd hb hst
      split
      next hc =>
        exact ⟨fun _ => ⟨hst2, hc.1, hc.2⟩, fun _ => rfl⟩
      next hc =>
        constructor
        · intro hfalse
          exact Bool.noConfusion hfalse
        · rintro ⟨h1, h2, h3⟩
          exact absurd ⟨h2, h3⟩ hc
  · intro hst
    unfold watchdogWake
    rw [if_pos hst]
  · intro hd
    have hst : s.stopped = false := by
      rcases hb : s.stopped with _ | _
      · rfl
      · unfold watchdogWake at hd
        rw [if_pos hb] at hd
        exact Bool.noConfusion hd
    have hcond : tasksRunning s = 0 ∧ 0 < s.queue.length := by
      by_contra hc
      unfold watchdogWake at hd
      rw [if_neg (by rw [hst]; decide), if_neg hc] at hd
      exact Bool.noConfusion hd
    unfold watchdogWake
    rw [if_neg (by rw [hst]; decide), if_pos hcond]
  · intro hs hstop hrun hq hfet hcpos
    obtain ⟨ns, hns⟩ := Option.isSome_iff_exists.mp hfet
    have hwake : (watchdogWake env (fuel + 1) s).1 = processQueue env (fuel + 1) s := by
      unfold watchdogWake
      rw [if_neg (by rw [hstop]; decide), if_pos ⟨hrun, by rw [hq]; simp⟩]
    rw [hwake, processQueue_succ, if_neg (by rw [hrun]; omega)]
    set m := min (s.concurrency - tasksRunning s) s.queue.length with hm
    have hminpos : 0 < m := by
      rw [hm]
      apply lt_min
      · rw [hrun]
        omega
      · rw [hq]
        simp
    obtain ⟨k, hkk⟩ : ∃ k, m = k + 1 := ⟨m - 1, by omega⟩
    have hitems : s.queue.take m = h0 :: qtail.take k := by
      rw [hkk, hq, List.take_succ_cons]
    rw [hitems]
    have hhq : h0 ∈ s.queue := by
      rw [hq]
      simp
    obtain ⟨s2, hp, hf2, hq2, hreq2, hst2, hpr2, hb2, he2, hc2, hsp2⟩ :=
      runItems_step_ok env s h0 ns (hs.qNotLog h0 hhq) (hs.disj h0 hhq) hs.nodupQ hns
    have hrw : runItems env s (h0 :: qtail.take k) =
        ((runItems env s2 (qtail.take k)).1,
          ns :: (runItems env s2 (qtail.take k)).2.1,
          (runItems env s2 (qtail.take k)).2.2) := by
      rw [runItems_cons env s h0 (qtail.take k), hp]
    have hmono := runItems_processed_mono env (qtail.take k) s2
    rcases hri : runItems env s2 (qtail.take k) with ⟨s1, hl, ab⟩
    rw [hri] at hrw hmono
    dsimp only at hrw hmono
    rw [hrw, hpr2] at *
    rw [hrw]
    rw [hpr2] at hmono
    cases ab with
    | true => exact hmono
    | false =>
      refine le_trans hmono ?_
      exact flushFold_processed_mono env fuel _
        (processQueue_processed_mono env fuel) (ns :: hl) s1

/-- Witness for the amended C10 at a concrete reachable state: the wake-iff
holds, and the invoked wake processes one more hash. -/
theorem watchdog_wake_spec_witness :
    ((watchdogWake envThree 9 stateCeilOne).2 = true ↔
      (stateCeilOne.stopped = false ∧ tasksRunning stateCeilOne = 0 ∧
        0 < stateCeilOne.queue.length)) ∧
    stateCeilOne.statsTasksProcessed + 1 ≤
      (watchdogWake envThree (8 + 1) stateCeilOne).1.statsTasksProcessed := by
  constructor
  · exact (watchdog_wake_spec envThree 9 stateCeilOne "h2" ["h3"]).1
  · exact (watchdog_wake_spec envThree 8 stateCeilOne "h2" ["h3"]).2.2.2
      ⟨by decide, by decide, by decide, by decide, by decide, by decide, by decide,
        by decide⟩
      (by decide) (by decide) (by decide) rfl (by decide)

/-! ### Claim C1: traversal termination and completeness -/

/-- The empty pending-escape predicate. -/
def PFalse : String → Prop := fun _ => False

/-- Propositional form of `envClosed`. -/
def EnvOK (env : Env) (univ : List String) : Prop :=
  ∀ h ∈ univ, env.inLog h = false ∧
    ∃ ns, env.fetch h = some ns ∧ ∀ n ∈ ns, n ∈ univ

theorem envClosed_envOK (env : Env) (univ : List String)
    (h : envClosed env univ = true) : EnvOK env univ := by
  intro x hx
  unfold envClosed at h
  rw [List.all_eq_true] at h
  have hb := h x hx
  simp only [Bool.and_eq_true, Bool.not_eq_true'] at hb
  refine ⟨hb.1, ?_⟩
  rcases hf : env.fetch x with _ | ns
  · rw [hf] at hb
    exact Bool.noConfusion hb.2
  · rw [hf] at hb
    refine ⟨ns, rfl, ?_⟩
    intro n hn
    have := hb.2
    rw [List.all_eq_true] at this
    simpa using this n hn

/-- Growth of the visited/queued region across an operation: the fetching list
is extended at the end only, and every queued hash stays queued or moves to
fetching. -/
def StepMono (s r : RState) : Prop :=
  (∃ t, r.fetching = s.fetching ++ t) ∧
  (∀ x ∈ s.queue, x ∈ r.queue ∨ x ∈ r.fetching)

theorem stepMono_refl (s : RState) : StepMono s s :=
  ⟨⟨[], by simp⟩, fun x hx => Or.inl hx⟩

theorem stepMono_trans {s r u : RState} (h1 : StepMono s r) (h2 : StepMono r u) :
    StepMono s u := by
  obtain ⟨⟨t1, ht1⟩, hq1⟩ := h1
  obtain ⟨⟨t2, ht2⟩, hq2⟩ := h2
  refine ⟨⟨t1 ++ t2, by rw [ht2, ht1, List.append_assoc]⟩, ?_⟩
  intro x hx
  rcases hq1 x hx with hxa | hxb
  · exact hq2 x hxa
  · right
    rw [ht2]
    exact List.mem_append_left _ hxb

theorem stepMono_fetching_mem {s r : RState} (h : StepMono s r) {x : String}
    (hx : x ∈ s.fetching) : x ∈ r.fetching := by
  obtain ⟨⟨t, ht⟩, _⟩ := h
  rw [ht]
  exact List.mem_append_left _ hx

/-- The traversal invariant for a fully fetchable universe, with a pending
escape `P` for frontier hashes discovered but not yet re-enqueued (they sit in
the local `hashesList` of some enclosing `processQueue`). -/
structure CInv (env : Env) (univ roots : List String) (P : String → Prop)
    (s : RState) : Prop where
  cpos : 0 < s.concurrency
  qSub : ∀ h ∈ s.queue, h ∈ univ
  fSub : ∀ h ∈ s.fetching, h ∈ univ
  qNodup : s.queue.Nodup
  fNodup : s.fetching.Nodup
  disj : ∀ h ∈ s.queue, h ∉ s.fetching
  noRun : s.statsTasksStarted = s.statsTasksProcessed
  closedF : ∀ h ∈ s.fetching, ∀ ns, env.fetch h = some ns →
    ∀ n ∈ ns, n ∈ s.fetching ∨ n ∈ s.queue ∨ P n
  sound : ∀ h : String, (h ∈ s.fetching ∨ h ∈ s.queue) → Reaches env roots h
  frag : flushedLogs s.events ++ s.buffer = s.fetching
  procLen : s.statsTasksProcessed = s.fetching.length

/-- Roots coverage: every root is already visited or queued. -/
def RootsIn (roots : List String) (s : RState) : Prop :=
  ∀ h ∈ roots, h ∈ s.fetching ∨ h ∈ s.queue

theorem rootsIn_mono {roots : List String} {s r : RState}
    (hm : StepMono s r) (hr : RootsIn roots s) : RootsIn roots r := by
  intro h hh
  rcases hr h hh with hf | hq
  · exact Or.inl (stepMono_fetching_mem hm hf)
  · rcases hm.2 h hq with hq2 | hf2
    · exact Or.inr hq2
    · exact Or.inl hf2

theorem flushedLogs_nil : flushedLogs [] = [] := rfl

theorem flushedLogs_loadAdded (h : String) :
    flushedLogs [REvent.loadAdded h] = [] := rfl

theorem flushedLogs_loadProgress (h : String) (n : Nat) :
    flushedLogs [REvent.loadProgress h n] = [] := rfl

theorem flushedLogs_loadEnd (l : List String) :
    flushedLogs [REvent.loadEnd l] = l := by
  simp [flushedLogs]

/-- Escape-set manipulation: pending hashes that are now visited or queued (or
covered by the new escape) can be dropped from the escape. -/
theorem cinv_escape (env : Env) (univ roots : List String)
    (P1 P2 : String → Prop) (s : RState)
    (hs : CInv env univ roots P1 s)
    (hP : ∀ n, P1 n → n ∈ s.fetching ∨ n ∈ s.queue ∨ P2 n) :
    CInv env univ roots P2 s := by
  refine ⟨hs.cpos, hs.qSub, hs.fSub, hs.qNodup, hs.fNodup, hs.disj, hs.noRun,
    ?_, hs.sound, hs.frag, hs.procLen⟩
  intro h hh ns hns n hn
  rcases hs.closedF h hh ns hns n hn with h1 | h2 | h3
  · exact Or.inl h1
  · exact Or.inr (Or.inl h2)
  · exact hP n h3

/-- `flushCheck` and the traversal invariant. -/
theorem flushCheck_cinv (env : Env) (univ roots : List String) (P : String → Prop)
    (s : RState) (n : Nat) (hs : CInv env univ roots P s) :
    CInv env univ roots P (flushCheck s n) ∧
    (flushCheck s n).fetching = s.fetching ∧
    (flushCheck s n).queue = s.queue ∧
    (0 < n → (flushCheck s n).buffer = []) ∧
    (s.buffer = [] → (flushCheck s n).buffer = []) := by
  unfold flushCheck
  split
  next hc =>
    refine ⟨⟨hs.cpos, hs.qSub, hs.fSub, hs.qNodup, hs.fNodup, hs.disj, hs.noRun,
      hs.closedF, hs.sound, ?_, hs.procLen⟩, rfl, rfl, fun _ => rfl, fun _ => rfl⟩
    show flushedLogs (s.events ++ [REvent.loadEnd s.buffer]) ++ [] = s.fetching
    rw [flushedLogs_append, flushedLogs_loadEnd, List.append_nil]
    exact hs.frag
  next hc =>
    refine ⟨hs, rfl, rfl, ?_, fun hb => hb⟩
    intro hn
    have hlen : ¬(0 < s.buffer.length) := by
      intro hbl
      exact hc (Or.inl ⟨hn, hbl⟩)
    have : s.buffer.length = 0 := by omega
    exact List.eq_nil_of_length_eq_zero this

/-- The dedup gate and the traversal invariant: a hash of the universe that is
reachable may be offered to the gate; it ends up visited or queued, and the
invariant survives. -/
theorem loadStep_cinv (env : Env) (univ roots : List String) (P : String → Prop)
    (s : RState) (h : String) (hs : CInv env univ roots P s)
    (hu : h ∈ univ) (hlog : env.inLog h = false) (hr : Reaches env roots h) :
    CInv env univ roots P (loadStep env s h) ∧
    StepMono s (loadStep env s h) ∧
    (h ∈ (loadStep env s h).fetching ∨ h ∈ (loadStep env s h).queue) ∧
    (loadStep env s h).fetching = s.fetching ∧
    (loadStep env s h).buffer = s.buffer ∧
    (loadStep env s h).events = s.events ∧
    (loadStep env s h).statsTasksStarted = s.statsTasksStarted ∧
    (loadStep env s h).statsTasksProcessed = s.statsTasksProcessed := by
  unfold loadStep
  by_cases hc : (s.fetching.contains h || s.queue.contains h || env.inLog h) = true
  · rw [if_pos hc]
    refine ⟨hs, stepMono_refl s, ?_, rfl, rfl, rfl, rfl, rfl⟩
    rw [hlog] at hc
    simp only [Bool.or_false, Bool.or_eq_true] at hc
    rcases hc with hc | hc
    · exact Or.inl (by simpa using hc)
    · exact Or.inr (by simpa using hc)
  · rw [if_neg hc]
    simp only [Bool.or_eq_true, not_or] at hc
    have hnf : h ∉ s.fetching := by
      intro hmem
      exact hc.1.1 (by simpa using hmem)
    have hnq : h ∉ s.queue := by
      intro hmem
      exact hc.1.2 (by simpa using hmem)
    refine ⟨?_, ?_, ?_, by rfl, by rfl, by rfl, by rfl, by rfl⟩
    · refine ⟨hs.cpos, ?_, hs.fSub, ?_, hs.fNodup, ?_, hs.noRun, ?_, ?_, hs.frag,
        hs.procLen⟩
      · intro x hx
        simp only [addToQueue, List.mem_append, List.mem_singleton] at hx
        rcases hx with hx | rfl
        · exact hs.qSub x hx
        · exact hu
      · simpa [addToQueue, List.nodup_append] using ⟨hs.qNodup, hnq⟩
      · intro x hx
        simp only [addToQueue, List.mem_append, List.mem_singleton] at hx
        rcases hx with hx | rfl
        · exact hs.disj x hx
        · exact hnf
      · intro x hx ns hns nn hnn
        rcases hs.closedF x hx ns hns nn hnn with h1 | h2 | h3
        · exact Or.inl h1
        · exact Or.inr (Or.inl (by
            show nn ∈ s.queue ++ [h]
            exact List.mem_append_left _ h2))
        · exact Or.inr (Or.inr h3)
      · intro x hx
        rcases hx with hx | hx
        · exact hs.sound x (Or.inl hx)
        · simp only [addToQueue, List.mem_append, List.mem_singleton] at hx
          rcases hx with hx | rfl
          · exact hs.sound x (Or.inr hx)
          · exact hr
    · refine ⟨⟨[], by simp [addToQueue]⟩, ?_⟩
      intro x hx
      exact Or.inl (List.mem_append_left _ hx)
    · right
      show h ∈ s.queue ++ [h]
      simp

/-- Helper: membership in fetching-or-queue survives a monotone step. -/
theorem stepMono_fq {s r : RState} (hm : StepMono s r) {x : String}
    (hx : x ∈ s.fetching ∨ x ∈ s.queue) : x ∈ r.fetching ∨ x ∈ r.queue := by
  rcases hx with hf | hq
  · exact Or.inl (stepMono_fetching_mem hm hf)
  · rcases hm.2 x hq with hq2 | hf2
    · exact Or.inr hq2
    · exact Or.inl hf2

/-- The whole gate loop and the traversal invariant. -/
theorem enqueueAll_cinv (env : Env) (univ roots : List String) (P : String → Prop) :
    ∀ (cids : List String) (s : RState), CInv env univ roots P s →
      (∀ x ∈ cids, x ∈ univ ∧ env.inLog x = false ∧ Reaches env roots x) →
      CInv env univ roots P (enqueueAll env s cids) ∧
      StepMono s (enqueueAll env s cids) ∧
      (∀ x ∈ cids, x ∈ (enqueueAll env s cids).fetching ∨
        x ∈ (enqueueAll env s cids).queue) ∧
      (enqueueAll env s cids).fetching = s.fetching ∧
      (enqueueAll env s cids).buffer = s.buffer ∧
      (enqueueAll env s cids).events = s.events ∧
      (enqueueAll env s cids).statsTasksStarted = s.statsTasksStarted ∧
      (enqueueAll env s cids).statsTasksProcessed = s.statsTasksProcessed := by
  intro cids
  induction cids with
  | nil =>
    intro s hs hall
    exact ⟨hs, stepMono_refl s, by simp, rfl, rfl, rfl, rfl, rfl⟩
  | cons c cs ih =>
    intro s hs hall
    obtain ⟨hu, hlog, hr⟩ := hall c (by simp)
    obtain ⟨g1, g2, g3, g4, g5, g6, g7, g8⟩ :=
      loadStep_cinv env univ roots P s c hs hu hlog hr
    have hstep : enqueueAll env s (c :: cs) = enqueueAll env (loadStep env s c) cs := rfl
    rw [hstep]
    obtain ⟨k1, k2, k3, k4, k5, k6, k7, k8⟩ :=
      ih (loadStep env s c) g1 (fun x hx => hall x (by simp [hx]))
    refine ⟨k1, stepMono_trans g2 k2, ?_, k4.trans g4, k5.trans g5, k6.trans g6,
      k7.trans g7, k8.trans g8⟩
    intro x hx
    rcases List.mem_cons.mp hx with rfl | hx2
    · exact stepMono_fq k2 g3
    · exact k3 x hx2

/-- The batch loop on a fully fetchable universe: no abort, every item is
fetched (visited, counted, buffered) exactly once, the rest of the queue is
untouched, no flush happens, and the returned `hashesList` consists exactly of
the next-pointer lists of the batch items. -/
theorem runItems_good (env : Env) (univ : List String) (henv : EnvOK env univ) :
    ∀ (items : List String) (s : RState),
      s.queue.Nodup →
      (∀ x ∈ s.queue, x ∈ univ) →
      (∀ x ∈ s.queue, x ∉ s.fetching) →
      items.Nodup →
      (∀ x ∈ items, x ∈ s.queue) →
      (runItems env s items).2.2 = false ∧
      (runItems env s items).1.fetching = s.fetching ++ items ∧
      (∀ x : String, x ∈ (runItems env s items).1.queue ↔ x ∈ s.queue ∧ x ∉ items) ∧
      (runItems env s items).1.queue.Nodup ∧
      (runItems env s items).1.statsTasksStarted = s.statsTasksStarted + items.length ∧
      (runItems env s items).1.statsTasksProcessed
        = s.statsTasksProcessed + items.length ∧
      (runItems env s items).1.buffer = s.buffer ++ items ∧
      flushedLogs (runItems env s items).1.events = flushedLogs s.events ∧
      (runItems env s items).1.concurrency = s.concurrency ∧
      (runItems env s items).1.stopped = s.stopped ∧
      (∀ h ∈ items, ∃ l, l ∈ (runItems env s items).2.1 ∧ env.fetch h = some l) ∧
      (∀ l ∈ (runItems env s items).2.1, ∃ h ∈ items, env.fetch h = some l) := by
  intro items
  induction items with
  | nil =>
    intro s hndQ hqU hdisj hndI hmem
    refine ⟨rfl, by simp [runItems], by simp [runItems], hndQ, by simp [runItems],
      by simp [runItems], by simp [runItems], rfl, rfl, rfl, by simp [runItems],
      by simp [runItems]⟩
  | cons h rest ih =>
    intro s hndQ hqU hdisj hndI hmem
    have hhq : h ∈ s.queue := hmem h (by simp)
    obtain ⟨hlog, ns, hns, hnsU⟩ := henv h (hqU h hhq)
    have hnf : h ∉ s.fetching := hdisj h hhq
    obtain ⟨s2, hp, hf2, hq2, hreq2, hst2, hpr2, hb2, he2, hc2, hsp2⟩ :=
      runItems_step_ok env s h ns hlog hnf hndQ hns
    have hrw : runItems env s (h :: rest) =
        ((runItems env s2 rest).1, ns :: (runItems env s2 rest).2.1,
          (runItems env s2 rest).2.2) := by
      rw [runItems_cons env s h rest, hp]
    rw [hrw]
    have hndQ2 : s2.queue.Nodup := by rw [hq2]; exact hndQ.erase h
    have hqU2 : ∀ x ∈ s2.queue, x ∈ univ := by
      intro x hx
      rw [hq2] at hx
      exact hqU x (List.mem_of_mem_erase hx)
    have hdisj2 : ∀ x ∈ s2.queue, x ∉ s2.fetching := by
      intro x hx
      rw [hq2] at hx
      rw [hf2]
      have hxq : x ∈ s.queue := List.mem_of_mem_erase hx
      have hxne : x ≠ h := ((hndQ.mem_erase_iff).mp hx).1
      simp only [List.mem_append, List.mem_singleton, not_or]
      exact ⟨hdisj x hxq, hxne⟩
    have hmem2 : ∀ x ∈ rest, x ∈ s2.queue := by
      intro x hx
      rw [hq2]
      have hxq : x ∈ s.queue := hmem x (by simp [hx])
      have hxne : x ≠ h := by
        intro heq
        subst heq
        exact absurd hx (List.nodup_cons.mp hndI).1
      exact (List.mem_erase_of_ne hxne).mpr hxq
    obtain ⟨k1, k2, k3, k4, k5, k6, k7, k8, k9, k10, k11, k12⟩ :=
      ih s2 hndQ2 hqU2 hdisj2 (List.nodup_cons.mp hndI).2 hmem2
    refine ⟨k1, ?_, ?_, k4, ?_, ?_, ?_, ?_, k9.trans hc2, k10.trans hsp2, ?_, ?_⟩
    · rw [k2, hf2, List.append_assoc]
      rfl
    · intro x
      constructor
      · intro hx
        obtain ⟨hx1, hx2⟩ := (k3 x).mp hx
        rw [hq2] at hx1
        obtain ⟨hne, hxq⟩ := (hndQ.mem_erase_iff).mp hx1
        refine ⟨hxq, ?_⟩
        simp only [List.mem_cons, not_or]
        exact ⟨hne, hx2⟩
      · rintro ⟨hxq, hxn⟩
        simp only [List.mem_cons, not_or] at hxn
        refine (k3 x).mpr ⟨?_, hxn.2⟩
        rw [hq2]
        exact (List.mem_erase_of_ne hxn.1).mpr hxq
    · rw [k5, hst2, List.length_cons]
      omega
    · rw [k6, hpr2, List.length_cons]
      omega
    · rw [k7, hb2, List.append_assoc]
      rfl
    · rw [k8, he2, flushedLogs_append, flushedLogs_append, flushedLogs_loadAdded,
        flushedLogs_loadProgress]
      simp
    · intro x hx
      rcases List.mem_cons.mp hx with rfl | hx2
      · exact ⟨ns, List.mem_cons_self _ _, hns⟩
      · obtain ⟨l, hl1, hl2⟩ := k11 x hx2
        exact ⟨l, List.mem_cons_of_mem _ hl1, hl2⟩
    · intro l hl
      rcases List.mem_cons.mp hl with rfl | hl2
      · exact ⟨h, by simp, hns⟩
      · obtain ⟨x, hx1, hx2⟩ := k12 l hl2
        exact ⟨x, by simp [hx1], hx2⟩

/-- The flush/recursion loop on a fully fetchable universe: pending frontier
lists are re-enqueued through the dedup gate (closing the traversal loop), the
invariant holds afterwards with the pending escape discharged, and the buffer
ends empty whenever the batch was non-trivial (or started empty). -/
theorem flushFold_good (env : Env) (univ roots : List String)
    (_henv : EnvOK env univ) (fuel itemsLen : Nat)
    (ihpq : ∀ (P : String → Prop) (s : RState), CInv env univ roots P s →
      CInv env univ roots P (processQueue env fuel s) ∧
      StepMono s (processQueue env fuel s) ∧
      (s.buffer = [] → (processQueue env fuel s).buffer = [])) :
    ∀ (hl : List (List String)) (P : String → Prop) (s : RState),
      CInv env univ roots (fun n => P n ∨ ∃ l ∈ hl, n ∈ l) s →
      (∀ l ∈ hl, ∀ n ∈ l, n ∈ univ ∧ env.inLog n = false ∧ Reaches env roots n) →
      CInv env univ roots P
        (flushFold (fun st cs => processQueue env fuel (enqueueAll env st cs))
          itemsLen s hl) ∧
      StepMono s
        (flushFold (fun st cs => processQueue env fuel (enqueueAll env st cs))
          itemsLen s hl) ∧
      (s.buffer = [] →
        (flushFold (fun st cs => processQueue env fuel (enqueueAll env st cs))
          itemsLen s hl).buffer = []) ∧
      (0 < itemsLen → hl ≠ [] →
        (flushFold (fun st cs => processQueue env fuel (enqueueAll env st cs))
          itemsLen s hl).buffer = []) := by
  intro hl
  induction hl with
  | nil =>
    intro P s hs hside
    refine ⟨cinv_escape env univ roots _ P s hs ?_, stepMono_refl s,
      fun hb => hb, fun _ hne => absurd rfl hne⟩
    intro n hn
    rcases hn with hn | ⟨l, hlm, _⟩
    · exact Or.inr (Or.inr hn)
    · exact absurd hlm (List.not_mem_nil l)
  | cons hashes rest ihl =>
    intro P s hs hside
    rw [flushFold_cons]
    obtain ⟨f1, f2, f3, f4, f5⟩ := flushCheck_cinv env univ roots _ s itemsLen hs
    have fmono : StepMono s (flushCheck s itemsLen) := by
      refine ⟨⟨[], by rw [f2]; simp⟩, ?_⟩
      intro x hx
      rw [f3]
      exact Or.inl hx
    split
    next hemp =>
      have hne : hashes = [] := by
        cases hashes with
        | nil => rfl
        | cons a as => exact Bool.noConfusion hemp
      subst hne
      have hw : CInv env univ roots (fun n => P n ∨ ∃ l ∈ rest, n ∈ l)
          (flushCheck s itemsLen) := by
        refine cinv_escape env univ roots _ _ _ f1 ?_
        intro n hn
        rcases hn with hn | ⟨l, hlm, hnl⟩
        · exact Or.inr (Or.inr (Or.inl hn))
        · rcases List.mem_cons.mp hlm with rfl | hl2
          · exact absurd hnl (List.not_mem_nil n)
          · exact Or.inr (Or.inr (Or.inr ⟨l, hl2, hnl⟩))
      obtain ⟨g1, g2, g3, g4⟩ := ihl P (flushCheck s itemsLen) hw
        (fun l hlm => hside l (by simp [hlm]))
      refine ⟨g1, stepMono_trans fmono g2, ?_, ?_⟩
      · intro hb
        exact g3 (f5 hb)
      · intro hil _
        exact g3 (f4 hil)
    next hemp =>
      have hsideH := hside hashes (by simp)
      obtain ⟨e1, e2, e3, e4, e5, e6, e7, e8⟩ :=
        enqueueAll_cinv env univ roots _ hashes (flushCheck s itemsLen) f1 hsideH
      have he : CInv env univ roots (fun n => P n ∨ ∃ l ∈ rest, n ∈ l)
          (enqueueAll env (flushCheck s itemsLen) hashes) := by
        refine cinv_escape env univ roots _ _ _ e1 ?_
        intro n hn
        rcases hn with hn | ⟨l, hlm, hnl⟩
        · exact Or.inr (Or.inr (Or.inl hn))
        · rcases List.mem_cons.mp hlm with rfl | hl2
          · rcases e3 n hnl with hm | hm
            · exact Or.inl hm
            · exact Or.inr (Or.inl hm)
          · exact Or.inr (Or.inr (Or.inr ⟨l, hl2, hnl⟩))
      obtain ⟨p1, p2, p3⟩ := ihpq _ _ he
      obtain ⟨g1, g2, g3, g4⟩ := ihl P _ p1 (fun l hlm => hside l (by simp [hlm]))
      refine ⟨g1, ?_, ?_, ?_⟩
      · exact stepMono_trans fmono (stepMono_trans e2 (stepMono_trans p2 g2))
      · intro hb
        refine g3 (p3 ?_)
        rw [e5]
        exact f5 hb
      · intro hil _
        refine g3 (p3 ?_)
        rw [e5]
        exact f4 hil

/-- One `processQueue` round on a fully fetchable universe: the invariant is
preserved, the visited/queued region only grows, an initially empty buffer ends
empty, and when the queue is non-empty (and fuel positive) at least one new
hash is visited. -/
theorem processQueue_good (env : Env) (univ roots : List String)
    (henv : EnvOK env univ) :
    ∀ (fuel : Nat) (P : String → Prop) (s : RState),
      CInv env univ roots P s →
      CInv env univ roots P (processQueue env fuel s) ∧
      StepMono s (processQueue env fuel s) ∧
      (s.buffer = [] → (processQueue env fuel s).buffer = []) ∧
      (1 ≤ fuel → s.queue ≠ [] →
        s.fetching.length < (processQueue env fuel s).fetching.length) := by
  intro fuel
  induction fuel with
  | zero =>
    intro P s hs
    exact ⟨hs, stepMono_refl s, fun hb => hb, fun h1 _ => absurd h1 (by decide)⟩
  | succ fuel ihf =>
    intro P s hs
    have hrun0 : tasksRunning s = 0 := by
      unfold tasksRunning
      rw [hs.noRun]
      omega
    rw [processQueue_succ, if_neg (by rw [hrun0]; exact Nat.not_le.mpr hs.cpos)]
    set items := s.queue.take (min (s.concurrency - tasksRunning s) s.queue.length)
      with hitemsdef
    have hndI : items.Nodup := hs.qNodup.sublist (List.take_sublist _ _)
    have hmemI : ∀ x ∈ items, x ∈ s.queue := fun x hx => List.take_subset _ _ hx
    obtain ⟨k1, k2, k3, k4, k5, k6, k7, k8, k9, k10, k11, k12⟩ :=
      runItems_good env univ henv items s hs.qNodup hs.qSub hs.disj hndI hmemI
    rcases hri : runItems env s items with ⟨s1, hl, ab⟩
    rw [hri] at k1 k2 k3 k4 k5 k6 k7 k8 k9 k10 k11 k12
    dsimp only at k1 k2 k3 k4 k5 k6 k7 k8 k9 k10 k11 k12
    have hab : ab = false := k1
    subst hab
    -- the invariant on the post-batch state, with the frontier lists pending
    have hs1 : CInv env univ roots (fun n => P n ∨ ∃ l ∈ hl, n ∈ l) s1 := by
      refine ⟨?_, ?_, ?_, k4, ?_, ?_, ?_, ?_, ?_, ?_, ?_⟩
      · rw [k9]
        exact hs.cpos
      · intro x hx
        exact hs.qSub x ((k3 x).mp hx).1
      · intro x hx
        rw [k2] at hx
        rcases List.mem_append.mp hx with hx | hx
        · exact hs.fSub x hx
        · exact hs.qSub x (hmemI x hx)
      · rw [k2]
        rw [List.nodup_append]
        refine ⟨hs.fNodup, hndI, ?_⟩
        intro x hx1 hx2
        exact hs.disj x (hmemI x hx2) hx1
      · intro x hx
        obtain ⟨hxq, hxn⟩ := (k3 x).mp hx
        rw [k2]
        simp only [List.mem_append, not_or]
        exact ⟨hs.disj x hxq, hxn⟩
      · rw [k5, k6, hs.noRun]
      · intro h hh ns hns n hn
        rw [k2] at hh
        rcases List.mem_append.mp hh with hh | hh
        · rcases hs.closedF h hh ns hns n hn with h1 | h2 | h3
          · exact Or.inl (by rw [k2]; exact List.mem_append_left _ h1)
          · by_cases hni : n ∈ items
            · exact Or.inl (by rw [k2]; exact List.mem_append_right _ hni)
            · exact Or.inr (Or.inl ((k3 n).mpr ⟨h2, hni⟩))
          · exact Or.inr (Or.inr (Or.inl h3))
        · obtain ⟨l, hlm, hfl⟩ := k11 h hh
          rw [hns] at hfl
          have : ns = l := by injection hfl
          subst this
          exact Or.inr (Or.inr (Or.inr ⟨ns, hlm, hn⟩))
      · intro x hx
        rcases hx with hx | hx
        · rw [k2] at hx
          rcases List.mem_append.mp hx with hx | hx
          · exact hs.sound x (Or.inl hx)
          · exact hs.sound x (Or.inr (hmemI x hx))
        · exact hs.sound x (Or.inr ((k3 x).mp hx).1)
      · rw [k8, k7, k2, ← List.append_assoc, hs.frag]
      · rw [k6, k2, List.length_append, hs.procLen]
    have hside : ∀ l ∈ hl, ∀ n ∈ l,
        n ∈ univ ∧ env.inLog n = false ∧ Reaches env roots n := by
      intro l hlm n hn
      obtain ⟨h, hhi, hfl⟩ := k12 l hlm
      have hhu : h ∈ univ := hs.qSub h (hmemI h hhi)
      obtain ⟨_, ns2, hns2, hns2U⟩ := henv h hhu
      rw [hns2] at hfl
      have : ns2 = l := by injection hfl
      subst this
      have hnu : n ∈ univ := hns2U n hn
      refine ⟨hnu, (henv n hnu).1, ?_⟩
      exact Reaches.step (hs.sound h (Or.inr (hmemI h hhi))) hns2 hn
    have ihpq2 : ∀ (P2 : String → Prop) (s2 : RState), CInv env univ roots P2 s2 →
        CInv env univ roots P2 (processQueue env fuel s2) ∧
        StepMono s2 (processQueue env fuel s2) ∧
        (s2.buffer = [] → (processQueue env fuel s2).buffer = []) := by
      intro P2 s2 hs2
      obtain ⟨a1, a2, a3, _⟩ := ihf P2 s2 hs2
      exact ⟨a1, a2, a3⟩
    obtain ⟨g1, g2, g3, g4⟩ :=
      flushFold_good env univ roots henv fuel items.length ihpq2 hl P s1 hs1 hside
    have hmono1 : StepMono s s1 := by
      refine ⟨⟨items, k2⟩, ?_⟩
      intro x hx
      by_cases hxi : x ∈ items
      · exact Or.inr (by rw [k2]; exact List.mem_append_right _ hxi)
      · exact Or.inl ((k3 x).mpr ⟨hx, hxi⟩)
    refine ⟨g1, stepMono_trans hmono1 g2, ?_, ?_⟩
    · intro hb
      by_cases hitems0 : items = []
      · refine g3 ?_
        rw [k7, hb, hitems0]
        rfl
      · refine g4 (List.length_pos.mpr hitems0) ?_
        obtain ⟨a, as, ha⟩ := List.exists_cons_of_ne_nil hitems0
        obtain ⟨l, hlm, _⟩ := k11 a (by rw [ha]; simp)
        intro hhl
        rw [hhl] at hlm
        exact absurd hlm (List.not_mem_nil l)
    · intro _ hq
      have hqpos : 0 < s.queue.length := List.length_pos.mpr hq
      have hlen : 0 < items.length := by
        rw [hitemsdef, List.length_take]
        apply lt_min
        · apply lt_min
          · rw [hrun0]
            simpa using hs.cpos
          · exact hqpos
        · exact hqpos
      obtain ⟨⟨t, ht⟩, _⟩ := g2
      have : s1.fetching.length ≤
          (flushFold (fun st cs => processQueue env fuel (enqueueAll env st cs))
            items.length s1 hl).fetching.length := by
        rw [ht, List.length_append]
        omega
      rw [k2, List.length_append] at this
      show s.fetching.length <
        (flushFold (fun st cs => processQueue env fuel (enqueueAll env st cs))
          items.length s1 hl).fetching.length
      omega

/-- Unfolding lemma for `drainRepeat` at a positive round count. -/
theorem drainRepeat_succ (env : Env) (fuel n : Nat) (s : RState) :
    drainRepeat env fuel (n + 1) s =
      if s.queue.isEmpty then s
      else drainRepeat env fuel n (processQueue env fuel s) := rfl

/-- The fresh engine satisfies the traversal invariant (with no roots loaded
yet and nothing pending). -/
theorem cinv_init (env : Env) (univ roots : List String) (c : Nat) :
    CInv env univ roots PFalse (initState c) := by
  refine ⟨?_, ?_, ?_, ?_, ?_, ?_, rfl, ?_, ?_, rfl, rfl⟩
  · show 0 < (if c = 0 then 128 else c)
    split
    · decide
    next hne => omega
  · intro h hh
    exact absurd hh (List.not_mem_nil h)
  · intro h hh
    exact absurd hh (List.not_mem_nil h)
  · exact List.nodup_nil
  · exact List.nodup_nil
  · intro h hh
    exact absurd hh (List.not_mem_nil h)
  · intro h hh
    exact absurd hh (List.not_mem_nil h)
  · intro h hh
    rcases hh with hh | hh
    · exact absurd hh (List.not_mem_nil h)
    · exact absurd hh (List.not_mem_nil h)

/-- Repeated dispatch (watchdog rounds or repeated external loads) terminates:
enough rounds, each visiting at least one new hash of the finite universe,
leave the queue empty with the invariant intact. -/
theorem drainRepeat_good (env : Env) (univ roots : List String)
    (henv : EnvOK env univ) (fuel : Nat) (hfuel : 1 ≤ fuel) :
    ∀ (n : Nat) (s : RState),
      CInv env univ roots PFalse s →
      RootsIn roots s →
      univ.length ≤ n + s.fetching.length →
      s.buffer = [] →
      (drainRepeat env fuel n s).queue = [] ∧
      CInv env univ roots PFalse (drainRepeat env fuel n s) ∧
      RootsIn roots (drainRepeat env fuel n s) ∧
      (drainRepeat env fuel n s).buffer = [] := by
  intro n
  induction n with
  | zero =>
    intro s hs hr hlen hb
    have hq : s.queue = [] := by
      by_contra hne
      obtain ⟨a, as, ha⟩ := List.exists_cons_of_ne_nil hne
      have haq : a ∈ s.queue := by rw [ha]; simp
      have hf2 : (s.fetching ++ [a]).Nodup := by
        rw [List.nodup_append]
        refine ⟨hs.fNodup, List.nodup_singleton a, ?_⟩
        intro x hx1 hx2
        simp only [List.mem_singleton] at hx2
        subst hx2
        exact hs.disj x haq hx1
      have hsub : ∀ x ∈ s.fetching ++ [a], x ∈ univ := by
        intro x hx
        rcases List.mem_append.mp hx with hx | hx
        · exact hs.fSub x hx
        · simp only [List.mem_singleton] at hx
          subst hx
          exact hs.qSub x haq
      have hle := (List.subperm_of_subset hf2 hsub).length_le
      simp only [List.length_append, List.length_singleton] at hle
      omega
    exact ⟨hq, hs, hr, hb⟩
  | succ n ihn =>
    intro s hs hr hlen hb
    rw [drainRepeat_succ]
    split
    next hemp =>
      have hq : s.queue = [] := by
        cases hsq : s.queue with
        | nil => rfl
        | cons a as =>
          rw [hsq] at hemp
          exact Bool.noConfusion hemp
      exact ⟨hq, hs, hr, hb⟩
    next hemp =>
      have hq : s.queue ≠ [] := by
        intro hnil
        rw [hnil] at hemp
        exact hemp rfl
      obtain ⟨p1, p2, p3, p4⟩ := processQueue_good env univ roots henv fuel PFalse s hs
      have hprog := p4 hfuel hq
      exact ihn (processQueue env fuel s) p1 (rootsIn_mono p2 hr) (by omega) (p3 hb)

/-- At a quiescent state (empty queue, invariant, roots covered), every
reachable hash has been visited. -/
theorem fetching_complete (env : Env) (univ roots : List String) (s : RState)
    (hs : CInv env univ roots PFalse s) (hr : RootsIn roots s)
    (hq : s.queue = []) :
    ∀ h : String, Reaches env roots h → h ∈ s.fetching := by
  intro h hre
  induction hre with
  | @root h2 hh =>
    rcases hr h2 hh with hf | hqm
    · exact hf
    · rw [hq] at hqm
      exact absurd hqm (List.not_mem_nil h2)
  | @step h2 n2 ns hre2 hfetch hmem ih =>
    rcases hs.closedF h2 ih ns hfetch n2 hmem with h1 | h2m | h3
    · exact h1
    · rw [hq] at h2m
      exact absurd h2m (List.not_mem_nil n2)
    · exact absurd h3 id

/-- Claim C1: traversal termination and completeness.  For any finite,
fetchable universe of hashes (`envClosed`), loading a set of roots and then
repeatedly draining (the watchdog re-invokes `processQueue` while the queue is
non-empty; one round per remaining hash suffices) terminates in a state whose
queue is empty and whose visited (`fetching`) set is exactly the set of hashes
transitively reachable from the roots, each fetched exactly once: the visited
list is duplicate-free, the processed counter equals its size, the buffer is
empty, and the fragments carried across all `EventLoadEnd` (BatchFlushed)
events are exactly the visited hashes, each exactly once and in fetch order. -/
theorem traversal_completeness (env : Env) (univ roots : List String)
    (c fuel n : Nat)
    (henv : envClosed env univ = true)
    (hroots : ∀ h ∈ roots, h ∈ univ)
    (hfuel : 1 ≤ fuel) (hn : univ.length ≤ n) :
    (drainRepeat env fuel n (Load env fuel (initState c) roots)).queue = [] ∧
    (drainRepeat env fuel n (Load env fuel (initState c) roots)).buffer = [] ∧
    (drainRepeat env fuel n (Load env fuel (initState c) roots)).fetching.Nodup ∧
    (∀ h : String,
      h ∈ (drainRepeat env fuel n (Load env fuel (initState c) roots)).fetching ↔
        Reaches env roots h) ∧
    (drainRepeat env fuel n (Load env fuel (initState c) roots)).statsTasksProcessed
      = (drainRepeat env fuel n (Load env fuel (initState c) roots)).fetching.length ∧
    flushedLogs (drainRepeat env fuel n (Load env fuel (initState c) roots)).events
      = (drainRepeat env fuel n (Load env fuel (initState c) roots)).fetching := by
  have henv2 := envClosed_envOK env univ henv
  have hinit := cinv_init env univ roots c
  obtain ⟨e1, e2, e3, e4, e5, e6, e7, e8⟩ :=
    enqueueAll_cinv env univ roots PFalse roots (initState c) hinit
      (fun x hx => ⟨hroots x hx, (henv2 x (hroots x hx)).1, Reaches.root hx⟩)
  obtain ⟨p1, p2, p3, _⟩ := processQueue_good env univ roots henv2 fuel PFalse _ e1
  have hL : CInv env univ roots PFalse (Load env fuel (initState c) roots) := p1
  have hLr : RootsIn roots (Load env fuel (initState c) roots) := rootsIn_mono p2 e3
  have hLb : (Load env fuel (initState c) roots).buffer = [] := by
    refine p3 ?_
    rw [e5]
    rfl
  obtain ⟨d1, d2, d3, d4⟩ :=
    drainRepeat_good env univ roots henv2 fuel hfuel n
      (Load env fuel (initState c) roots) hL hLr (by omega) hLb
  refine ⟨d1, d4, d2.fNodup, ?_, d2.procLen, ?_⟩
  · intro h
    constructor
    · intro hf
      exact d2.sound h (Or.inl hf)
    · intro hre
      exact fetching_complete env univ roots _ d2 d3 d1 h hre
  · have hfr := d2.frag
    rw [d4] at hfr
    simpa using hfr

/-- Witness for C1 at spec Scenario A: ceiling 2, roots `[h1, h2, h3]`,
`h2 → [h4]`.  The traversal ends with the queue empty, processed = 4, all four
fragments flushed across the `EventLoadEnd` events (here two events), and the
visited set exactly the reachable set. -/
theorem traversal_completeness_witness :
    envClosed envScenA ["h1", "h2", "h3", "h4"] = true ∧
    (drainRepeat envScenA 9 9
      (Load envScenA 9 (initState 2) ["h1", "h2", "h3"])).queue = [] ∧
    (drainRepeat envScenA 9 9
      (Load envScenA 9 (initState 2) ["h1", "h2", "h3"])).statsTasksProcessed = 4 ∧
    flushedLogs (drainRepeat envScenA 9 9
        (Load envScenA 9 (initState 2) ["h1", "h2", "h3"])).events
      = (drainRepeat envScenA 9 9
        (Load envScenA 9 (initState 2) ["h1", "h2", "h3"])).fetching ∧
    (drainRepeat envScenA 9 9
      (Load envScenA 9 (initState 2) ["h1", "h2", "h3"])).fetching.length = 4 ∧
    countLoadEnd (drainRepeat envScenA 9 9
      (Load envScenA 9 (initState 2) ["h1", "h2", "h3"])).events = 2 ∧
    (∀ h : String,
      h ∈ (drainRepeat envScenA 9 9
        (Load envScenA 9 (initState 2) ["h1", "h2", "h3"])).fetching ↔
        Reaches envScenA ["h1", "h2", "h3"] h) := by
  have hmain := traversal_completeness envScenA ["h1", "h2", "h3", "h4"]
    ["h1", "h2", "h3"] 2 9 9 (by decide) (by decide) (by decide) (by decide)
  exact ⟨by decide, hmain.1, by decide, hmain.2.2.2.2.2, by decide, by decide,
    hmain.2.2.2.1⟩
